import Mathlib

/-!
# Verification of the Warframe data-ingestion pipeline

A shallow embedding of the repository's ingestion pipeline:

* `src/ingestion/data_downloader.py` — resilient LZMA decompression
  (`decompress_lzma`, the shrink-and-retry loop of `download_and_decompress`)
  and the index-line splitting of `decompress_index`;
* `src/graph/models.py` — the pydantic validation models (required fields,
  permissive extras);
* `src/graph/ingest_neo4j.py` — node upserts (`MERGE ... SET r += $props`)
  and relationship derivation (`_create_weapon_categories`,
  `_create_recipe_relationships`).

JSON values are embedded as the inductive `Value`; a raw manifest record is an
association list of string keys to values (Python dicts have unique keys; the
embedding works with arbitrary association lists and states theorems against
`List.lookup`).  The Neo4j store is embedded as the `GraphState` structure:
association lists of node properties keyed by `uniqueName`/category name plus
a duplicate-free edge list; the Cypher statements used by the source are each
translated to an explicit state transformer.
-/

/-- A JSON value as it appears in a decoded manifest record. Floating-point
numbers do not occur in any property checked here; numeric literals are
modelled as integers. -/
inductive Value where
  | null : Value
  | bool (b : Bool) : Value
  | int (n : Int) : Value
  | str (s : String) : Value
  | list (xs : List Value) : Value
  | obj (fields : List (String × Value)) : Value

/-- Python truthiness (`if x:`) for a JSON value: `None`, `False`, `0`, empty
string / list / dict are falsy, everything else truthy. -/
def Value.truthy : Value → Bool
  | .null => false
  | .bool b => b
  | .int n => n != 0
  | .str s => !s.isEmpty
  | .list xs => !xs.isEmpty
  | .obj fields => !fields.isEmpty

mutual

/-- Structural equality of JSON values (the comparison `MERGE` performs on
pattern properties). -/
def Value.beq : Value → Value → Bool
  | .null, .null => true
  | .bool a, .bool b => a == b
  | .int a, .int b => a == b
  | .str a, .str b => a == b
  | .list xs, .list ys => Value.beqList xs ys
  | .obj xs, .obj ys => Value.beqObj xs ys
  | _, _ => false

/-- Pointwise equality of value lists. -/
def Value.beqList : List Value → List Value → Bool
  | [], [] => true
  | x :: xs, y :: ys => Value.beq x y && Value.beqList xs ys
  | _, _ => false

/-- Pointwise equality of string-keyed field lists. -/
def Value.beqObj : List (String × Value) → List (String × Value) → Bool
  | [], [] => true
  | (k, v) :: xs, (l, w) :: ys => k == l && Value.beq v w && Value.beqObj xs ys
  | _, _ => false

end

mutual

theorem Value.beq_refl : (v : Value) → Value.beq v v = true
  | .null => rfl
  | .bool b => by simp [Value.beq]
  | .int n => by simp [Value.beq]
  | .str s => by simp [Value.beq]
  | .list xs => by simpa [Value.beq] using Value.beqList_refl xs
  | .obj xs => by simpa [Value.beq] using Value.beqObj_refl xs

theorem Value.beqList_refl : (xs : List Value) → Value.beqList xs xs = true
  | [] => rfl
  | x :: xs => by
      simp only [Value.beqList, Bool.and_eq_true]
      exact ⟨Value.beq_refl x, Value.beqList_refl xs⟩

theorem Value.beqObj_refl : (xs : List (String × Value)) → Value.beqObj xs xs = true
  | [] => rfl
  | (k, v) :: xs => by
      simp only [Value.beqObj, Bool.and_eq_true]
      exact ⟨⟨by simp, Value.beq_refl v⟩, Value.beqObj_refl xs⟩

end

/-- A raw manifest record: one entry of a manifest's top-level array. -/
abbrev RawRecord := List (String × Value)

/-- A Neo4j property map (the `$props` parameter of the upsert queries). -/
abbrev Props := List (String × Value)

mutual

/-- `str()` of a value, used by `ingest_weapons` when it stringifies
`damagePerShot` and by the warning messages; the exact numeric formatting of
Python is abstracted (no claim depends on it). -/
def Value.pyStr : Value → String
  | .null => "None"
  | .bool b => if b then "True" else "False"
  | .int n => toString n
  | .str s => s
  | .list xs => "[" ++ Value.pyStrList xs ++ "]"
  | .obj _ => "dict"

/-- Comma-separated rendering of a value list. -/
def Value.pyStrList : List Value → String
  | [] => ""
  | [x] => Value.pyStr x
  | x :: xs => Value.pyStr x ++ ", " ++ Value.pyStrList xs

end

/-- Optional-value equality used for edge attributes. -/
def optValueBeq : Option Value → Option Value → Bool
  | none, none => true
  | some a, some b => Value.beq a b
  | _, _ => false

theorem optValueBeq_refl (v : Option Value) : optValueBeq v v = true := by
  cases v with
  | none => rfl
  | some a => simpa [optValueBeq] using Value.beq_refl a

/-- One graph edge. `MERGE (a)-[:REL {quantity: q}]->(b)` merges on the whole
pattern, so the quantity participates in the edge identity; `BELONGS_TO`
carries no attribute (`quantity = none`). -/
structure Edge where
  srcLabel : String
  srcKey : String
  relType : String
  tgtLabel : String
  tgtKey : String
  quantity : Option Value

/-- Equality of edge patterns, as `MERGE` matches them. -/
def Edge.beq (a b : Edge) : Bool :=
  a.srcLabel == b.srcLabel && a.srcKey == b.srcKey && a.relType == b.relType &&
  a.tgtLabel == b.tgtLabel && a.tgtKey == b.tgtKey && optValueBeq a.quantity b.quantity

theorem Edge.beqRefl (e : Edge) : Edge.beq e e = true := by
  simp [Edge.beq, optValueBeq_refl]

/-- Does an identical edge already exist? -/
def edgeMem (e : Edge) (es : List Edge) : Bool :=
  es.any (fun x => Edge.beq x e)

/-- The graph store: property maps keyed by `uniqueName` (Category nodes have
only their name), plus the edge list. `MERGE` never duplicates an identical
node or edge, which the operations below reflect. -/
structure GraphState where
  resources : List (String × Props)
  weapons : List (String × Props)
  recipes : List (String × Props)
  categories : List String
  edges : List Edge

/-- `SET r += $props`: keys present in `new` override, all other existing keys
are retained. -/
def mergeProps (old new : Props) : Props :=
  old.filter (fun kv => (List.lookup kv.1 new).isNone) ++ new

/-- `MERGE (r:Label {uniqueName: $u}) SET r += $props` on one node store. -/
def upsertStore (store : List (String × Props)) (u : String) (p : Props) :
    List (String × Props) :=
  if (List.lookup u store).isSome then
    store.map (fun e => if e.1 == u then (e.1, mergeProps e.2 p) else e)
  else
    store ++ [(u, p)]

/-- `MERGE` of an edge: a no-op when the identical edge already exists. -/
def insertEdge (es : List Edge) (e : Edge) : List Edge :=
  if edgeMem e es then es else es ++ [e]

example : Value.truthy (.str "") = false := by decide
example : Value.truthy (.int 3) = true := rfl
example : mergeProps [("a", .int 1), ("b", .int 2)] [("b", .int 9)] =
    [("a", .int 1), ("b", .int 9)] := rfl
example : upsertStore [("x", [("a", .int 1)])] "x" [("a", .int 2)] =
    [("x", [("a", .int 2)])] := rfl
example : insertEdge [⟨"Recipe", "R1", "BUILDS", "Weapon", "W1", some (.int 2)⟩]
    ⟨"Recipe", "R1", "BUILDS", "Weapon", "W1", some (.int 2)⟩ =
    [⟨"Recipe", "R1", "BUILDS", "Weapon", "W1", some (.int 2)⟩] := rfl

/-!
## Record validation (`src/graph/models.py`)

pydantic models with `extra = "allow"`: the required fields must be present
and of type `str`; every other raw field (declared-optional or extra) is kept
and forwarded opaquely.  `model_dump(..., exclude_none=True)` drops fields
whose value is `None`.  Type coercion of numeric optional fields is not
modelled (no claim depends on it); the two optional fields the ingestion code
reads back (`productCategory`, `damagePerShot`) are type-checked as pydantic
would.
-/

/-- The required-field check: the key must be present with a string value. -/
def requiredStr (raw : RawRecord) (k : String) : Option String :=
  match List.lookup k raw with
  | some (.str s) => some s
  | _ => none

/-- A validated node: its natural key plus all remaining raw fields
(declared-optional and extras alike, pydantic keeps both). -/
structure VNode where
  uniqueName : String
  rest : RawRecord

/-- An optional field that pydantic types as `Optional[str]`: absent, `None`
or a string. -/
def optionalStrOk (raw : RawRecord) (k : String) : Bool :=
  match List.lookup k raw with
  | none => true
  | some .null => true
  | some (.str _) => true
  | some _ => false

/-- An optional field typed `Optional[List[...]]`. -/
def optionalListOk (raw : RawRecord) (k : String) : Bool :=
  match List.lookup k raw with
  | none => true
  | some .null => true
  | some (.list _) => true
  | some _ => false

/-- Is every element of the value a JSON object?  (`List[Dict[str, Any]]`.) -/
def Value.allObj : List Value → Bool
  | [] => true
  | .obj _ :: xs => Value.allObj xs
  | _ => false

/-- An optional field typed `Optional[List[Dict[str, Any]]]`. -/
def optionalObjListOk (raw : RawRecord) (k : String) : Bool :=
  match List.lookup k raw with
  | none => true
  | some .null => true
  | some (.list xs) => Value.allObj xs
  | some _ => false

/-- `ResourceNode(**raw)`: requires string `uniqueName` and `name`. -/
def validateResource (raw : RawRecord) : Option VNode :=
  match requiredStr raw "uniqueName", requiredStr raw "name" with
  | some u, some _ => some ⟨u, raw.filter (fun kv => kv.1 != "uniqueName")⟩
  | _, _ => none

/-- `WeaponNode(**raw)`: requires string `uniqueName` and `name`; the fields
the ingestion code reads back must have their declared types. -/
def validateWeapon (raw : RawRecord) : Option VNode :=
  match requiredStr raw "uniqueName", requiredStr raw "name" with
  | some u, some _ =>
      if optionalStrOk raw "productCategory" && optionalListOk raw "damagePerShot" then
        some ⟨u, raw.filter (fun kv => kv.1 != "uniqueName")⟩
      else none
  | _, _ => none

/-- `RecipeNode(**raw)`: requires string `uniqueName` and `resultType`; the
ingredient lists, when present, must be lists of objects. -/
def validateRecipe (raw : RawRecord) : Option VNode :=
  match requiredStr raw "uniqueName", requiredStr raw "resultType" with
  | some u, some _ =>
      if optionalObjListOk raw "ingredients" && optionalObjListOk raw "secretIngredients" then
        some ⟨u, raw.filter (fun kv => kv.1 != "uniqueName")⟩
      else none
  | _, _ => none

/-- `exclude_none=True`: fields whose value is `None` are dropped from the
dump. -/
def dumpNonNull (r : RawRecord) : Props :=
  r.filter (fun kv => !(Value.beq kv.2 .null))

/-- `resource.model_dump(exclude=\x7b'uniqueName'\x7d, exclude_none=True)`. -/
def resourceProps (n : VNode) : Props :=
  dumpNonNull n.rest

/-- The weapon properties written by `ingest_weapons`: the full dump minus
`uniqueName`, with a truthy `damagePerShot` stringified before storage. -/
def weaponProps (n : VNode) : Props :=
  (dumpNonNull n.rest).map (fun kv =>
    if kv.1 == "damagePerShot" && kv.2.truthy then (kv.1, .str kv.2.pyStr) else kv)

/-- `recipe.model_dump(exclude=\x7b'uniqueName', 'ingredients',
'secretIngredients'\x7d, exclude_none=True)`: note that `resultType` is NOT in
the exclusion set of the source, so it is stored as a node property. -/
def recipeProps (n : VNode) : Props :=
  (dumpNonNull n.rest).filter
    (fun kv => kv.1 != "ingredients" && kv.1 != "secretIngredients")

/-- The identifier printed in a validation warning:
`raw.get('uniqueName', 'unknown')` rendered as text. -/
def rawNameOrUnknown (raw : RawRecord) : String :=
  match List.lookup "uniqueName" raw with
  | some v => v.pyStr
  | none => "unknown"

/-!
## Node-ingestion passes (`src/graph/ingest_neo4j.py`)

Each pass validates record by record inside `try/except`: a `ValidationError`
prints a warning and continues with the next record.  The state transformer
and the warning log are returned together.
-/

/-- One iteration of the `ingest_resources` loop. -/
def resourceStep (acc : GraphState × List String) (raw : RawRecord) :
    GraphState × List String :=
  match validateResource raw with
  | some n =>
      ({ acc.1 with resources := upsertStore acc.1.resources n.uniqueName (resourceProps n) },
       acc.2)
  | none =>
      (acc.1, acc.2 ++ ["Warning: Validation error for resource: " ++ rawNameOrUnknown raw])

/-- `ingest_resources`: upsert every validating record, log and skip the
rest. -/
def ingestResources (st : GraphState) (batch : List RawRecord) :
    GraphState × List String :=
  batch.foldl resourceStep (st, [])

/-- `if weapon.productCategory: categories.add(...)`: the category
accumulator after one validated weapon (first-seen order stands in for
Python's unordered set). -/
def catsAfter (n : VNode) (cats : List String) : List String :=
  match List.lookup "productCategory" n.rest with
  | some (Value.str s) => if s.isEmpty then cats
                          else if s ∈ cats then cats else cats ++ [s]
  | _ => cats

/-- One iteration of the `ingest_weapons` loop: upsert the weapon node and
track its truthy `productCategory` in the category accumulator. -/
def weaponStep (acc : GraphState × List String × List String) (raw : RawRecord) :
    GraphState × List String × List String :=
  match validateWeapon raw with
  | some n =>
      ({ acc.1 with weapons := upsertStore acc.1.weapons n.uniqueName (weaponProps n) },
       catsAfter n acc.2.1, acc.2.2)
  | none =>
      (acc.1, acc.2.1,
       acc.2.2 ++ ["Warning: Validation error for weapon"])

/-- The category node plus `BELONGS_TO` derivation for one category:
`MERGE (c:Category ...)`, then
`MATCH (w:Weapon \x7bproductCategory: $category\x7d) MATCH (c:Category ...)
MERGE (w)-[:BELONGS_TO]->(c)` — one edge per weapon whose stored
`productCategory` equals the category. -/
def insertCat (l : List String) (c : String) : List String :=
  if c ∈ l then l else l ++ [c]

/-- `MATCH (w:Weapon \x7bproductCategory: $category\x7d)`: the weapon nodes
whose stored `productCategory` equals the category name. -/
def linkedWeapons (weapons : List (String × Props)) (c : String) :
    List (String × Props) :=
  weapons.filter (fun w =>
    match List.lookup "productCategory" w.2 with
    | some (Value.str s) => s == c
    | _ => false)

/-- The `MERGE (w)-[:BELONGS_TO]->(c)` edges for one category: one per weapon
node whose stored `productCategory` equals the category name. -/
def belongsEdges (weapons : List (String × Props)) (es : List Edge) (c : String) :
    List Edge :=
  (linkedWeapons weapons c).foldl (fun acc w =>
    insertEdge acc ⟨"Weapon", w.1, "BELONGS_TO", "Category", c, none⟩) es

def categoryStep (st : GraphState) (c : String) : GraphState :=
  ⟨st.resources, st.weapons, st.recipes, insertCat st.categories c,
   belongsEdges st.weapons st.edges c⟩

/-- `_create_weapon_categories` over the collected category set. -/
def createWeaponCategories (st : GraphState) (cats : List String) : GraphState :=
  cats.foldl categoryStep st

/-- `ingest_weapons`: the node loop followed by the category pass. -/
def ingestWeapons (st : GraphState) (batch : List RawRecord) :
    GraphState × List String :=
  let r := batch.foldl weaponStep (st, [], [])
  (createWeaponCategories r.1 r.2.1, r.2.2)

/-- One iteration of the `ingest_recipes` node loop. -/
def recipeStep (acc : GraphState × List String) (raw : RawRecord) :
    GraphState × List String :=
  match validateRecipe raw with
  | some n =>
      ({ acc.1 with recipes := upsertStore acc.1.recipes n.uniqueName (recipeProps n) },
       acc.2)
  | none =>
      (acc.1, acc.2 ++ ["Warning: Validation error for recipe: " ++ rawNameOrUnknown raw])

/-- The node-upsert phase of `ingest_recipes`. -/
def ingestRecipeNodes (st : GraphState) (batch : List RawRecord) :
    GraphState × List String :=
  batch.foldl recipeStep (st, [])

/-!
## Relationship derivation (`_create_recipe_relationships`)

The pass iterates over the RAW recipe list (validated or not).  Each Cypher
statement `MATCH (recipe ...) MATCH (item ...) MERGE ... RETURN count(*)`
yields one row per successful double match, so `cnt` is `1` when both nodes
exist and `0` otherwise; the `MERGE` executes only in the former case.
The pass runs without a `try/except`, so a raised exception aborts it; those
abort points are modelled as `none`:
  * an `ingredients` value that is present but not a list of objects makes
    `for ingredient in ingredients` / `ingredient.get` raise
    (`TypeError`/`AttributeError`) — except for the vacuous empty-string and
    empty-dict iterations, which loop zero times;
  * Neo4j rejects `MERGE` with a `null` (or map-typed) pattern property
    (`quantity`), raising a client error when the statement runs on a matched
    row.
-/

/-- Is this value legal as a Neo4j relationship property? `null` and maps are
rejected by the store when they appear in a `MERGE` pattern. -/
def legalEdgeQuantity : Value → Bool
  | .null => false
  | .obj _ => false
  | _ => true

/-- `MATCH (x:Label \x7buniqueName: $v\x7d)` against one store: a parameter that
is not a string (or is absent) matches nothing; a string matches when a node
with that key exists. -/
def strKeyIn (store : List (String × Props)) (v : Option Value) : Option String :=
  match v with
  | some (Value.str s) => if (List.lookup s store).isSome then some s else none
  | _ => none

/-- The BUILDS derivation for one raw recipe: try the Weapon store first and
fall back to the Resource store only when the first double-MATCH produced no
row (`cnt == 0`).  `quantity` is `recipe_data.get('num', 1)`. -/
def processBuilds (st : GraphState) (raw : RawRecord) : Option GraphState :=
  let resultTypeV := List.lookup "resultType" raw
  match resultTypeV with
  | none => some st
  | some rt =>
    if !rt.truthy then some st
    else
      let qty : Value := (List.lookup "num" raw).getD (.int 1)
      let recipeKey := strKeyIn st.recipes (List.lookup "uniqueName" raw)
      match recipeKey, strKeyIn st.weapons resultTypeV with
      | some r, some w =>
          if legalEdgeQuantity qty then
            let e : Edge := ⟨"Recipe", r, "BUILDS", "Weapon", w, some qty⟩
            some { st with edges := insertEdge st.edges e }
          else none
      | _, _ =>
          match recipeKey, strKeyIn st.resources resultTypeV with
          | some r, some t =>
              if legalEdgeQuantity qty then
                let e : Edge := ⟨"Recipe", r, "BUILDS", "Resource", t, some qty⟩
                some { st with edges := insertEdge st.edges e }
              else none
          | _, _ => some st

/-- The REQUIRES derivation for one ingredient entry.  A non-object entry
makes `ingredient.get` raise and aborts the pass.  Only the Resource store is
consulted; `quantity` is `ingredient.get('ItemCount', 1)`. -/
def processIngredient (st : GraphState) (raw : RawRecord) (ing : Value) :
    Option GraphState :=
  match ing with
  | .obj fields =>
    let itemTypeV := List.lookup "ItemType" fields
    match itemTypeV with
    | none => some st
    | some it =>
      if !it.truthy then some st
      else
        let cnt : Value := (List.lookup "ItemCount" fields).getD (.int 1)
        match strKeyIn st.recipes (List.lookup "uniqueName" raw),
              strKeyIn st.resources itemTypeV with
        | some r, some t =>
            if legalEdgeQuantity cnt then
              let e : Edge := ⟨"Recipe", r, "REQUIRES", "Resource", t, some cnt⟩
              some { st with edges := insertEdge st.edges e }
            else none
        | _, _ => some st
  | _ => none

/-- `recipe_data.get('ingredients', [])` followed by the `for` loop: absent
yields no iterations; a list yields its entries; an empty string or empty
dict iterates zero times; anything else raises on iteration or on
`ingredient.get` and aborts the pass. -/
def rawIngredients (raw : RawRecord) : Option (List Value) :=
  match List.lookup "ingredients" raw with
  | none => some []
  | some (Value.list xs) => some xs
  | some (Value.str s) => if s.isEmpty then some [] else none
  | some (Value.obj fields) => if fields.isEmpty then some [] else none
  | some _ => none

/-- One iteration of the `_create_recipe_relationships` loop: the BUILDS
derivation, then the REQUIRES derivation for each ingredient in order. -/
def processRecipeRel (st : GraphState) (raw : RawRecord) : Option GraphState :=
  match processBuilds st raw with
  | none => none
  | some st1 =>
    match rawIngredients raw with
    | none => none
    | some ings => ings.foldlM (fun s ing => processIngredient s raw ing) st1

/-- `_create_recipe_relationships` over the whole raw recipe list. -/
def processRecipeRels (st : GraphState) (batch : List RawRecord) :
    Option GraphState :=
  batch.foldlM processRecipeRel st

/-- `ingest_recipes`: node upserts, then the relationship pass over the same
raw list. -/
def ingestRecipes (st : GraphState) (batch : List RawRecord) :
    Option (GraphState × List String) :=
  let r := ingestRecipeNodes st batch
  (processRecipeRels r.1 batch).map (fun s => (s, r.2))

/-- `clear_database`: `MATCH (n) DETACH DELETE n`. -/
def clearDatabase (_st : GraphState) : GraphState :=
  ⟨[], [], [], [], []⟩

/-- `ingest_all` without the optional clear step: the three ordered passes
Resources → Weapons → Recipes+links. -/
def pipeline (st : GraphState) (resBatch weapBatch recBatch : List RawRecord) :
    Option GraphState :=
  let s1 := (ingestResources st resBatch).1
  let s2 := (ingestWeapons s1 weapBatch).1
  (ingestRecipes s2 recBatch).map (fun r => r.1)

example :
    processBuilds
      ⟨[], [("W1", [])], [("R1", [])], [], []⟩
      [("uniqueName", .str "R1"), ("resultType", .str "W1"), ("num", .int 2)] =
    some ⟨[], [("W1", [])], [("R1", [])], [],
      [⟨"Recipe", "R1", "BUILDS", "Weapon", "W1", some (.int 2)⟩]⟩ := rfl

example :
    processIngredient
      ⟨[("Res1", [])], [], [("R1", [])], [], []⟩
      [("uniqueName", .str "R1")]
      (.obj [("ItemType", .str "Res1"), ("ItemCount", .int 5)]) =
    some ⟨[("Res1", [])], [], [("R1", [])], [],
      [⟨"Recipe", "R1", "REQUIRES", "Resource", "Res1", some (.int 5)⟩]⟩ := rfl

/-!
## Resilient decompression (`src/ingestion/data_downloader.py`)

`decompress_lzma` drives `lzma.LZMADecompressor` frame by frame.  The
decompressor itself is an external library, so it is embedded abstractly as a
`FrameDecoder`: `step data` is one `LZMADecompressor().decompress(data)` call,
returning either `none` (an `LZMAError`) or `some (res, unused, eof)` — the
decompressed bytes, `unused_data` and the `eof` flag.  The documented library
behaviour used in proofs:

  * `unused_data` is non-empty only after `eof`, and a completed frame
    consumes at least its header, so `eof = true` implies `unused` is shorter
    than the input (the `step_consumes` field);
  * an empty input decompresses to nothing without error
    (`step [] = some ([], [], false)` — supplied as a hypothesis where
    needed).

The loop of `decompress_lzma` is written with explicit fuel
(`input length + 1`) so that it is structurally recursive and computable by
`rfl`/`decide`; `step_consumes` guarantees the fuel never runs out, since an
iteration continues only when `eof` is set and `unused` is non-empty.
-/

/-- One `LZMADecompressor` instance, abstractly. -/
structure FrameDecoder where
  step : List Nat → Option (List Nat × List Nat × Bool)
  step_consumes : ∀ {d r u e}, step d = some (r, u, e) → e = true → u.length < d.length

/-- The `while True` loop body of `decompress_lzma`: `acc` is the
concatenation of `results`, `hasResults` tracks `if results:`.  The fuel
decrements once per iteration; `step_consumes` makes `length + 1` fuel
sufficient, so the out-of-fuel branch is unreachable for a `FrameDecoder`. -/
def lzmaLoop (step : List Nat → Option (List Nat × List Nat × Bool)) :
    Nat → List Nat → List Nat → Bool → Option (List Nat)
  | 0, _, _, _ => none
  | fuel + 1, data, acc, hasResults =>
    match step data with
    | none => if hasResults then some acc else none
    | some (res, unused, eof) =>
      if unused.isEmpty then some (acc ++ res)
      else if eof then lzmaLoop step fuel unused (acc ++ res) true
      else none

/-- `decompress_lzma(data)`: decode frames from the front; a failure after at
least one frame ends the loop with the accumulated output, a failure before
any progress propagates the error; unconsumed trailing bytes after a
completed frame are fed to a fresh decoder. -/
def decompressLzma (D : FrameDecoder) (data : List Nat) : Option (List Nat) :=
  lzmaLoop D.step (data.length + 1) data [] false

/-- The shrink-and-retry loop of `download_and_decompress`, indexed by the
current `length`: on an `LZMAError` the length shrinks by one and the whole
decode restarts on the shorter prefix.  `none` marks the loop leaving the
well-defined regime (a Python `length` of `-1` slices from the other end). -/
def retryLoop (D : FrameDecoder) (byt : List Nat) : Nat → Option (List Nat)
  | 0 => decompressLzma D (byt.take 0)
  | l + 1 =>
    match decompressLzma D (byt.take (l + 1)) with
    | some r => some r
    | none => retryLoop D byt l

/-- `download_and_decompress` after the HTTP fetch: run the retry loop
starting from the full buffer length. -/
def downloadAndDecompress (D : FrameDecoder) (byt : List Nat) : Option (List Nat) :=
  retryLoop D byt byt.length

/-- A concrete executable frame codec used for witnesses and counterexamples,
exhibiting the same interface behaviour as the LZMA library: a frame is
`[170, n]` followed by `n` payload bytes and decodes to its payload; a
truncated frame decodes its available payload without error and without
`eof`; data not starting with the magic byte raises immediately; empty input
decodes to nothing. -/
def toyStep : List Nat → Option (List Nat × List Nat × Bool)
  | [] => some ([], [], false)
  | m :: rest =>
    if m = 170 then
      match rest with
      | [] => some ([], [], false)
      | n :: body =>
        if n ≤ body.length then some (body.take n, body.drop n, true)
        else some (body, [], false)
    else none

theorem toyStep_consumes : ∀ {d r u e}, toyStep d = some (r, u, e) → e = true →
    u.length < d.length := by
  intro d r u e h he
  subst he
  rcases d with - | ⟨m, rest⟩
  · simp [toyStep] at h
  · simp only [toyStep] at h
    by_cases hm : m = 170
    · rw [if_pos hm] at h
      rcases rest with - | ⟨n, body⟩
      · simp at h
      · dsimp only at h
        by_cases hn : n ≤ body.length
        · rw [if_pos hn] at h
          simp only [Option.some.injEq, Prod.mk.injEq] at h
          obtain ⟨-, hu, -⟩ := h
          subst hu
          simp only [List.length_drop, List.length_cons]
          omega
        · rw [if_neg hn] at h
          simp at h
    · rw [if_neg hm] at h
      simp at h

/-- The toy codec packaged as a `FrameDecoder`. -/
def toy : FrameDecoder := ⟨toyStep, toyStep_consumes⟩

example : decompressLzma toy [170, 1, 5, 170, 1, 7] = some [5, 7] := rfl
example : decompressLzma toy [] = some [] := rfl
example : decompressLzma toy [9, 9] = none := rfl
example : downloadAndDecompress toy [170, 1, 5, 9] = some [5] := rfl

/-!
## Index splitting (`decompress_index`)

`f.read().strip().split('\n')`: strip whitespace from both ends of the whole
text, then split on every newline, KEEPING empty segments.  Text is modelled
as `List Char`.
-/

/-- The characters `str.strip()` removes. -/
def isPySpace (c : Char) : Bool :=
  c = ' ' || c = '\t' || c = '\n' || c = '\r' || c = Char.ofNat 11 || c = Char.ofNat 12

/-- Python `str.strip()`: drop leading and trailing whitespace. -/
def pyStrip (s : List Char) : List Char :=
  ((s.dropWhile isPySpace).reverse.dropWhile isPySpace).reverse

/-- Python `str.split('\n')`: split at every newline, keeping empty segments;
the empty string yields one empty segment. -/
def splitNl : List Char → List (List Char)
  | [] => [[]]
  | c :: cs =>
    if c = '\n' then [] :: splitNl cs
    else
      match splitNl cs with
      | [] => [[c]]
      | r :: rs => (c :: r) :: rs

/-- `decompress_index` applied to the decoded index text: the returned list
of manifest identifiers. -/
def decompressIndex (text : List Char) : List (List Char) :=
  splitNl (pyStrip text)

example : decompressIndex "a\nb\n".data = ["a".data, "b".data] := by decide
example : decompressIndex "a\n\nb".data = ["a".data, [], "b".data] := by decide
example : decompressIndex "".data = [[]] := by decide

/-!
## Claim C7 — index lines

`strip()` removes whitespace only from the two ENDS of the text; `split('\n')`
keeps empty segments, so a blank line BETWEEN identifiers is returned as an
empty identifier rather than excluded.
-/

/-- Join lines with newline separators (no trailing newline). -/
def joinNl : List (List Char) → List Char
  | [] => []
  | [l] => l
  | l :: ls => l ++ '\n' :: joinNl ls

theorem splitNl_no_newline (l : List Char) (h : ∀ c ∈ l, c ≠ '\n') :
    splitNl l = [l] := by
  induction l with
  | nil => rfl
  | cons c cs ih =>
    have hc : c ≠ '\n' := h c (by simp)
    have hcs := ih (fun x hx => h x (by simp [hx]))
    simp only [splitNl, if_neg hc, hcs]

theorem splitNl_append (l rest : List Char) (h : ∀ c ∈ l, c ≠ '\n') :
    splitNl (l ++ '\n' :: rest) = l :: splitNl rest := by
  induction l with
  | nil => simp [splitNl]
  | cons c cs ih =>
    have hc : c ≠ '\n' := h c (by simp)
    have hcs := ih (fun x hx => h x (by simp [hx]))
    simp only [List.cons_append, splitNl, if_neg hc, List.append_eq, hcs]

theorem splitNl_joinNl (lines : List (List Char)) (hne : lines ≠ [])
    (h : ∀ l ∈ lines, ∀ c ∈ l, c ≠ '\n') :
    splitNl (joinNl lines) = lines := by
  induction lines with
  | nil => exact absurd rfl hne
  | cons l ls ih =>
    rcases ls with - | ⟨m, ms⟩
    · exact splitNl_no_newline l (h l (by simp))
    · have hl : ∀ c ∈ l, c ≠ '\n' := h l (by simp)
      have hrest : ∀ x ∈ m :: ms, ∀ c ∈ x, c ≠ '\n' :=
        fun x hx => h x (by simp [hx])
      show splitNl (l ++ '\n' :: joinNl (m :: ms)) = l :: m :: ms
      rw [splitNl_append l _ hl, ih (by simp) hrest]

theorem joinNl_head (lines : List (List Char)) (hne : lines ≠ [])
    (hall : ∀ l ∈ lines, l ≠ [] ∧ ∀ c ∈ l, isPySpace c = false) :
    ∃ c t, joinNl lines = c :: t ∧ isPySpace c = false := by
  rcases lines with - | ⟨l, ls⟩
  · exact absurd rfl hne
  · obtain ⟨hl, hsp⟩ := hall l (by simp)
    rcases l with - | ⟨c, t0⟩
    · exact absurd rfl hl
    · have hc : isPySpace c = false := hsp c (by simp)
      rcases ls with - | ⟨m, ms⟩
      · exact ⟨c, t0, rfl, hc⟩
      · exact ⟨c, t0 ++ '\n' :: joinNl (m :: ms), by simp [joinNl], hc⟩

theorem joinNl_reverse_head (lines : List (List Char)) (hne : lines ≠ [])
    (hall : ∀ l ∈ lines, l ≠ [] ∧ ∀ c ∈ l, isPySpace c = false) :
    ∃ c t, (joinNl lines).reverse = c :: t ∧ isPySpace c = false := by
  induction lines with
  | nil => exact absurd rfl hne
  | cons l ls ih =>
    rcases ls with - | ⟨m, ms⟩
    · obtain ⟨hl, hsp⟩ := hall l (by simp)
      rcases hc : l.reverse with - | ⟨c, t⟩
      · exact absurd (by simpa using congrArg List.reverse hc) hl
      · refine ⟨c, t, hc, hsp c ?_⟩
        have : c ∈ l.reverse := by simp [hc]
        simpa using this
    · obtain ⟨c, t, hrev, hc⟩ := ih (by simp)
        (fun x hx => hall x (by simp at hx ⊢; exact Or.inr hx))
      refine ⟨c, t ++ '\n' :: l.reverse, ?_, hc⟩
      show (l ++ '\n' :: joinNl (m :: ms)).reverse = _
      rw [List.reverse_append]
      simp [hrev]

theorem pyStrip_joinNl (lines : List (List Char)) (hne : lines ≠ [])
    (hall : ∀ l ∈ lines, l ≠ [] ∧ ∀ c ∈ l, isPySpace c = false) :
    pyStrip (joinNl lines ++ ['\n']) = joinNl lines := by
  obtain ⟨c, t, hj, hc⟩ := joinNl_head lines hne hall
  obtain ⟨c2, t2, hr, hc2⟩ := joinNl_reverse_head lines hne hall
  unfold pyStrip
  have h1 : (joinNl lines ++ ['\n']).dropWhile isPySpace = joinNl lines ++ ['\n'] := by
    rw [hj]
    simp only [List.cons_append, List.dropWhile_cons, hc]
    simp
  rw [h1, List.reverse_append]
  simp only [List.reverse_cons, List.reverse_nil, List.nil_append, List.singleton_append,
    List.dropWhile_cons]
  have hnl : isPySpace '\n' = true := by decide
  rw [hnl]
  simp only [if_pos trivial, hr, List.dropWhile_cons, hc2]
  simp only [if_neg Bool.false_ne_true, ← hr, List.reverse_reverse]

/-- C7 counterexample: on the index text `"a\n\nb\n"` the code returns the
blank interior line as an empty identifier — the claimed output (blank lines
excluded) differs from the actual output. -/
theorem c7_counterexample :
    decompressIndex ("a\n\nb\n".data) = ["a".data, [], "b".data] ∧
    decompressIndex ("a\n\nb\n".data) ≠ ["a".data, "b".data] := by
  constructor
  · decide
  · decide

/-- C7 amended: for a well-formed index text — a non-empty sequence of
non-blank, whitespace-free lines each terminated by a newline — the returned
identifiers are exactly the lines in order.  (Leading/trailing blank lines
are removed by `strip()`, but an interior blank line is returned as an empty
identifier, not excluded: see the counterexample.) -/
theorem c7_index_lines (lines : List (List Char)) (hne : lines ≠ [])
    (hall : ∀ l ∈ lines, l ≠ [] ∧ ∀ c ∈ l, isPySpace c = false) :
    decompressIndex (joinNl lines ++ ['\n']) = lines := by
  unfold decompressIndex
  rw [pyStrip_joinNl lines hne hall]
  refine splitNl_joinNl lines hne ?_
  intro l hl ch hch heq
  have := (hall l hl).2 ch hch
  rw [heq] at this
  exact absurd this (by decide)

/-- C7 witness: the spec's end-to-end index example, two identifiers each on
their own line. -/
theorem c7_index_lines_witness :
    decompressIndex (joinNl ["ExportResources_en.json!abc".data,
      "ExportWeapons_en.json!def".data] ++ ['\n']) =
    ["ExportResources_en.json!abc".data, "ExportWeapons_en.json!def".data] :=
  c7_index_lines _ (by decide) (by decide)

/-!
## Claims C4–C6 — the shrink-and-retry decoder

`decompress_lzma` propagates a zero-progress failure as an error, but the
retry loop in `download_and_decompress` catches every `LZMAError` alike: it
shrinks the buffer to length 0, where decompressing the empty prefix succeeds
with empty output — a fundamentally invalid buffer is thus reported as an
empty index, not as a hard failure.  Trailing garbage that itself decodes (a
complete or truncated valid frame) is appended to the output rather than
discarded.
-/

theorem lzmaLoop_succ (step : List Nat → Option (List Nat × List Nat × Bool))
    (fuel : Nat) (data acc : List Nat) (hasResults : Bool) :
    lzmaLoop step (fuel + 1) data acc hasResults =
      match step data with
      | none => if hasResults then some acc else none
      | some (res, unused, eof) =>
        if unused.isEmpty then some (acc ++ res)
        else if eof then lzmaLoop step fuel unused (acc ++ res) true
        else none := rfl

/-- One successful non-final iteration of the loop: a decoded frame with a
non-empty remainder recurses on the remainder. -/
theorem lzmaLoop_cont (step : List Nat → Option (List Nat × List Nat × Bool))
    (fuel : Nat) (data acc res unused : List Nat) (hasResults : Bool)
    (h : step data = some (res, unused, true)) (hne : unused.isEmpty = false) :
    lzmaLoop step (fuel + 1) data acc hasResults =
      lzmaLoop step fuel unused (acc ++ res) true := by
  rw [lzmaLoop_succ, h]
  simp [hne]

/-- A failing iteration after at least one decoded frame breaks the loop with
the accumulated output. -/
theorem lzmaLoop_break (step : List Nat → Option (List Nat × List Nat × Bool))
    (fuel : Nat) (data acc : List Nat) (h : step data = none) :
    lzmaLoop step (fuel + 1) data acc true = some acc := by
  rw [lzmaLoop_succ, h]
  rfl

/-- A zero-progress decode failure is an error of `decompress_lzma` itself:
no internal retry happens. -/
theorem decompressLzma_step_none (D : FrameDecoder) (data : List Nat)
    (h : D.step data = none) : decompressLzma D data = none := by
  unfold decompressLzma
  rw [lzmaLoop_succ, h]
  rfl

/-- An empty input is success with empty output (`decompress_lzma(b"")`). -/
theorem decompressLzma_empty (D : FrameDecoder)
    (hempty : D.step [] = some ([], [], false)) :
    decompressLzma D [] = some [] := by
  unfold decompressLzma
  rw [lzmaLoop_succ, hempty]
  rfl

/-- C5 counterexample: `[1]` is a non-empty buffer on which every decode
attempt fails with zero progress (the decoder errors on `[1]` itself), yet
the download pipeline returns a successful empty result instead of reporting
a hard failure. -/
theorem c5_counterexample :
    toy.step [1] = none ∧
    decompressLzma toy [1] = none ∧
    downloadAndDecompress toy [1] = some [] :=
  ⟨rfl, rfl, rfl⟩

/-- C5 amended: a zero-progress failure is indeed an error of the frame-level
decoder `decompress_lzma` (first conjunct), but the shrink-and-retry loop of
`download_and_decompress` catches it and keeps shrinking; when every
non-empty prefix fails to decode, the run does not fail — it silently
returns an empty result from the zero-length prefix (second conjunct). -/
theorem c5_zero_progress (D : FrameDecoder) (byt : List Nat)
    (hfail : ∀ n, 0 < n → n ≤ byt.length → D.step (byt.take n) = none)
    (hempty : D.step [] = some ([], [], false)) :
    (byt ≠ [] → decompressLzma D byt = none) ∧
    downloadAndDecompress D byt = some [] := by
  constructor
  · intro hne
    have := hfail byt.length (by
      cases byt with
      | nil => exact absurd rfl hne
      | cons a l => simp) le_rfl
    rw [List.take_length] at this
    exact decompressLzma_step_none D byt this
  · have key : ∀ l, l ≤ byt.length → retryLoop D byt l = some [] := by
      intro l
      induction l with
      | zero =>
        intro _
        show decompressLzma D (byt.take 0) = some []
        rw [List.take_zero]
        exact decompressLzma_empty D hempty
      | succ l ih =>
        intro hl
        show (match decompressLzma D (byt.take (l + 1)) with
              | some r => some r
              | none => retryLoop D byt l) = some []
        rw [decompressLzma_step_none D _ (hfail (l + 1) (Nat.succ_pos l) hl)]
        exact ih (Nat.le_of_succ_le hl)
    exact key byt.length le_rfl

/-- C5 witness: the counterexample input satisfies the amended statement. -/
theorem c5_zero_progress_witness :
    (([1] : List Nat) ≠ [] → decompressLzma toy [1] = none) ∧
    downloadAndDecompress toy [1] = some [] :=
  c5_zero_progress toy [1]
    (by
      intro n h1 h2
      have : n = 1 := by simpa using Nat.le_antisymm h2 h1
      subst this
      rfl)
    rfl

/-- C6 confirmed: the retry loop always terminates with a successful decode
at some length ≥ 0 — the length never shrinks below zero, because the
zero-length prefix (the empty buffer) always decodes successfully. -/
theorem c6_retry_terminates (D : FrameDecoder) (byt : List Nat)
    (hempty : D.step [] = some ([], [], false)) :
    (downloadAndDecompress D byt).isSome = true := by
  have key : ∀ l, (retryLoop D byt l).isSome = true := by
    intro l
    induction l with
    | zero =>
      show (decompressLzma D (byt.take 0)).isSome = true
      rw [List.take_zero, decompressLzma_empty D hempty]
      rfl
    | succ l ih =>
      show (match decompressLzma D (byt.take (l + 1)) with
            | some r => some r
            | none => retryLoop D byt l).isSome = true
      cases h : decompressLzma D (byt.take (l + 1)) with
      | some r => rfl
      | none => exact ih
  exact key byt.length

/-- C6 witness: a concrete garbage buffer terminates with a successful (here
empty) decode. -/
theorem c6_retry_terminates_witness :
    (downloadAndDecompress toy [1, 2, 3]).isSome = true :=
  c6_retry_terminates toy [1, 2, 3] rfl

/-- C4 counterexample: two valid 5-byte frames (decoding to `[5,6,7]` and
`[8,9,10]`) followed by 3 ≤ 5−1 garbage bytes that happen to form a valid
frame themselves: the decoder appends the garbage's payload `[42]`, so the
output is NOT the concatenation of the two frames' plaintext. -/
theorem c4_counterexample :
    toy.step [170, 3, 5, 6, 7] = some ([5, 6, 7], [], true) ∧
    toy.step [170, 3, 8, 9, 10] = some ([8, 9, 10], [], true) ∧
    downloadAndDecompress toy
      ([170, 3, 5, 6, 7] ++ [170, 3, 8, 9, 10] ++ [170, 1, 42]) =
      some ([5, 6, 7] ++ [8, 9, 10] ++ [42]) ∧
    some ([5, 6, 7] ++ [8, 9, 10] ++ [42]) ≠
      some (([5, 6, 7] ++ [8, 9, 10] : List Nat)) :=
  ⟨rfl, rfl, rfl, by decide⟩

/-- C4 amended: the property holds when the decoder ERRORS on the trailing
garbage (as LZMA does on bytes that do not begin a frame): decompressing two
back-to-back frames plus such garbage yields exactly the concatenation of the
two plaintexts, at the very first attempt of the retry loop.  (Garbage that
itself decodes — a valid or truncated frame — is appended to the output
instead: see the counterexample.) -/
theorem c4_two_frames_garbage (D : FrameDecoder) (f1 f2 g p1 p2 : List Nat)
    (hg : g ≠ [])
    (h1 : D.step (f1 ++ f2 ++ g) = some (p1, f2 ++ g, true))
    (h2 : D.step (f2 ++ g) = some (p2, g, true))
    (h3 : D.step g = none) :
    downloadAndDecompress D (f1 ++ f2 ++ g) = some (p1 ++ p2) := by
  have hlen2 : (f2 ++ g).length < (f1 ++ f2 ++ g).length := D.step_consumes h1 rfl
  have hlen3 : g.length < (f2 ++ g).length := D.step_consumes h2 rfl
  have hfg : (f2 ++ g).isEmpty = false := by
    rcases g with - | ⟨a, l⟩
    · exact absurd rfl hg
    · simp
  have hgne : g.isEmpty = false := by
    rcases g with - | ⟨a, l⟩
    · exact absurd rfl hg
    · simp
  have hdec : decompressLzma D (f1 ++ f2 ++ g) = some (p1 ++ p2) := by
    unfold decompressLzma
    rw [lzmaLoop_cont D.step _ _ _ _ _ _ h1 hfg]
    obtain ⟨J, hJ⟩ : ∃ J, (f1 ++ f2 ++ g).length = J + 1 :=
      ⟨(f1 ++ f2 ++ g).length - 1, by omega⟩
    rw [hJ, lzmaLoop_cont D.step _ _ _ _ _ _ h2 hgne]
    obtain ⟨K, hK⟩ : ∃ K, J = K + 1 := ⟨J - 1, by omega⟩
    rw [hK, lzmaLoop_break D.step _ _ _ h3]
    simp
  obtain ⟨M, hM⟩ : ∃ M, (f1 ++ f2 ++ g).length = M + 1 := ⟨(f1 ++ f2 ++ g).length - 1, by omega⟩
  unfold downloadAndDecompress
  rw [hM]
  show (match decompressLzma D ((f1 ++ f2 ++ g).take (M + 1)) with
        | some r => some r
        | none => retryLoop D (f1 ++ f2 ++ g) M) = some (p1 ++ p2)
  rw [← hM, List.take_length, hdec]

/-- C4 witness: the amended statement at the toy codec, with garbage the
decoder rejects. -/
theorem c4_two_frames_garbage_witness :
    downloadAndDecompress toy ([170, 1, 5] ++ [170, 1, 7] ++ [9]) =
      some ([5] ++ [7]) :=
  c4_two_frames_garbage toy [170, 1, 5] [170, 1, 7] [9] [5] [7]
    (by decide) rfl rfl rfl

/-!
## Claims C1–C3 — recipe relationship resolution and stored recipe fields
-/

/-- Adding one merged edge to the state. -/
def withEdge (st : GraphState) (e : Edge) : GraphState :=
  { st with edges := insertEdge st.edges e }

theorem lookup_isSome_exists_mem {β : Type} (k : String) (l : List (String × β))
    (h : (List.lookup k l).isSome = true) : ∃ p ∈ l, p.1 = k := by
  induction l with
  | nil => simp [List.lookup] at h
  | cons p l ih =>
    rcases p with ⟨a, b⟩
    by_cases hk : (k == a) = true
    · exact ⟨(a, b), by simp, (beq_iff_eq.mp hk).symm⟩
    · have hk2 : (k == a) = false := by simpa using hk
      simp only [List.lookup, hk2] at h
      obtain ⟨q, hq, hqk⟩ := ih h
      exact ⟨q, List.mem_cons_of_mem _ hq, hqk⟩

theorem lookup_eq_some_mem {β : Type} (k : String) (v : β) (l : List (String × β))
    (h : List.lookup k l = some v) : (k, v) ∈ l := by
  induction l with
  | nil => simp [List.lookup] at h
  | cons p l ih =>
    rcases p with ⟨a, b⟩
    by_cases hk : (k == a) = true
    · simp only [List.lookup, hk, Option.some.injEq] at h
      have ha : a = k := (beq_iff_eq.mp hk).symm
      subst ha
      subst h
      simp
    · have hk2 : (k == a) = false := by simpa using hk
      simp only [List.lookup, hk2] at h
      exact List.mem_cons_of_mem _ (ih h)

theorem Value.beq_null_iff (v : Value) : Value.beq v .null = true ↔ v = .null := by
  cases v <;> simp [Value.beq]

/-- C1 confirmed: for a recipe record with a (truthy) string `resultType` and
an existing Recipe node, the BUILDS derivation (a) creates exactly one BUILDS
edge to the Weapon of that `uniqueName` when one exists — and never one to a
Resource, even if a Resource with the same name also exists, since the state
is updated with the Weapon edge alone; (b) if and only if no such Weapon
exists, creates the edge to the Resource of that name if one exists; the
quantity is the record's `num` value, defaulting to 1 when absent; (c) when
neither matches, the state is returned unchanged and no error is raised. -/
theorem c1_builds_resolution (st : GraphState) (raw : RawRecord) (u t : String)
    (hu : List.lookup "uniqueName" raw = some (.str u))
    (hrec : (List.lookup u st.recipes).isSome = true)
    (ht : List.lookup "resultType" raw = some (.str t))
    (htne : t ≠ "")
    (hnum : List.lookup "num" raw = none ∨
            ∃ n : Int, List.lookup "num" raw = some (.int n)) :
    ((List.lookup t st.weapons).isSome = true →
      processBuilds st raw = some (withEdge st
        ⟨"Recipe", u, "BUILDS", "Weapon", t,
         some ((List.lookup "num" raw).getD (.int 1))⟩)) ∧
    ((List.lookup t st.weapons).isSome = false →
      (List.lookup t st.resources).isSome = true →
      processBuilds st raw = some (withEdge st
        ⟨"Recipe", u, "BUILDS", "Resource", t,
         some ((List.lookup "num" raw).getD (.int 1))⟩)) ∧
    ((List.lookup t st.weapons).isSome = false →
      (List.lookup t st.resources).isSome = false →
      processBuilds st raw = some st) := by
  have hie : t.isEmpty = false := by
    cases hb : t.isEmpty with
    | false => rfl
    | true => exact absurd ((String.isEmpty_iff t).mp hb) htne
  have hstr : (Value.str t).truthy = true := by
    simp [Value.truthy, hie]
  have hR : strKeyIn st.recipes (some (Value.str u)) = some u := by
    simp [strKeyIn, hrec]
  have hleg : legalEdgeQuantity ((List.lookup "num" raw).getD (.int 1)) = true := by
    rcases hnum with h | ⟨n, h⟩ <;> rw [h] <;> rfl
  refine ⟨?_, ?_, ?_⟩
  · intro hw
    have hW : strKeyIn st.weapons (some (Value.str t)) = some t := by
      simp [strKeyIn, hw]
    simp [processBuilds, ht, hu, hR, hW, hstr, hleg, withEdge]
  · intro hw hres
    have hW : strKeyIn st.weapons (some (Value.str t)) = none := by
      simp [strKeyIn, hw]
    have hRes : strKeyIn st.resources (some (Value.str t)) = some t := by
      simp [strKeyIn, hres]
    simp [processBuilds, ht, hu, hR, hW, hRes, hstr, hleg, withEdge]
  · intro hw hres
    have hW : strKeyIn st.weapons (some (Value.str t)) = none := by
      simp [strKeyIn, hw]
    have hRes : strKeyIn st.resources (some (Value.str t)) = none := by
      simp [strKeyIn, hres]
    simp [processBuilds, ht, hu, hR, hW, hRes, hstr, hleg]

/-- C1 witness: Recipe `R1` with `resultType` `W1` and `num` 2, in a state
where BOTH a Weapon and a Resource named `W1` exist: the single created
BUILDS edge targets the Weapon. -/
theorem c1_builds_resolution_witness :
    processBuilds ⟨[("W1", [])], [("W1", [])], [("R1", [])], [], []⟩
      [("uniqueName", .str "R1"), ("resultType", .str "W1"), ("num", .int 2)] =
    some (withEdge ⟨[("W1", [])], [("W1", [])], [("R1", [])], [], []⟩
      ⟨"Recipe", "R1", "BUILDS", "Weapon", "W1", some (.int 2)⟩) :=
  (c1_builds_resolution ⟨[("W1", [])], [("W1", [])], [("R1", [])], [], []⟩
    [("uniqueName", .str "R1"), ("resultType", .str "W1"), ("num", .int 2)]
    "R1" "W1" rfl rfl rfl (by decide) (Or.inr ⟨2, rfl⟩)).1 rfl

/-- C3 confirmed: for an ingredient entry of a recipe whose node exists — in a
store whose resource keys are non-empty (the spec's `uniqueName` invariant) —
a REQUIRES edge to the Resource named by `ItemType` is created if and only if
such a Resource exists, with quantity `ItemCount` defaulting to 1; no Weapon
fallback is ever attempted (the only edge the operation can add is
Resource-labelled); a non-matching, falsy or absent `ItemType` leaves the
state unchanged and raises no error. -/
theorem c3_requires_resolution (st : GraphState) (raw : RawRecord)
    (fields : List (String × Value)) (u : String)
    (hu : List.lookup "uniqueName" raw = some (.str u))
    (hrec : (List.lookup u st.recipes).isSome = true)
    (hres : ∀ p ∈ st.resources, p.1 ≠ "")
    (hcnt : List.lookup "ItemCount" fields = none ∨
            ∃ n : Int, List.lookup "ItemCount" fields = some (.int n)) :
    (∀ s, List.lookup "ItemType" fields = some (.str s) →
      ((List.lookup s st.resources).isSome = true →
        processIngredient st raw (.obj fields) = some (withEdge st
          ⟨"Recipe", u, "REQUIRES", "Resource", s,
           some ((List.lookup "ItemCount" fields).getD (.int 1))⟩)) ∧
      ((List.lookup s st.resources).isSome = false →
        processIngredient st raw (.obj fields) = some st)) ∧
    (∀ v, List.lookup "ItemType" fields = some v → v.truthy = false →
      processIngredient st raw (.obj fields) = some st) ∧
    (List.lookup "ItemType" fields = none →
      processIngredient st raw (.obj fields) = some st) := by
  have hR : strKeyIn st.recipes (some (Value.str u)) = some u := by
    simp [strKeyIn, hrec]
  have hleg : legalEdgeQuantity ((List.lookup "ItemCount" fields).getD (.int 1)) = true := by
    rcases hcnt with h | ⟨n, h⟩ <;> rw [h] <;> rfl
  refine ⟨?_, ?_, ?_⟩
  · intro s hit
    constructor
    · intro hsome
      have hne : s ≠ "" := by
        obtain ⟨p, hp, hpk⟩ := lookup_isSome_exists_mem s st.resources hsome
        rw [← hpk]
        exact hres p hp
      have hie : s.isEmpty = false := by
        cases hb : s.isEmpty with
        | false => rfl
        | true => exact absurd ((String.isEmpty_iff s).mp hb) hne
      have hRes : strKeyIn st.resources (some (Value.str s)) = some s := by
        simp [strKeyIn, hsome]
      simp [processIngredient, hit, hu, hR, hRes, hleg, withEdge, Value.truthy, hie]
    · intro hnone
      cases hie : s.isEmpty with
      | true => simp [processIngredient, hit, Value.truthy, hie]
      | false =>
        have hRes : strKeyIn st.resources (some (Value.str s)) = none := by
          simp [strKeyIn, hnone]
        simp [processIngredient, hit, hu, hR, hRes, Value.truthy, hie]
  · intro v hit hv
    simp [processIngredient, hit, hv]
  · intro hit
    simp [processIngredient, hit]

/-- C3 witness: the spec's end-to-end example — ingredient `Res1` with count
5 produces the REQUIRES edge with quantity 5. -/
theorem c3_requires_resolution_witness :
    processIngredient ⟨[("Res1", [])], [], [("R1", [])], [], []⟩
      [("uniqueName", .str "R1")]
      (.obj [("ItemType", .str "Res1"), ("ItemCount", .int 5)]) =
    some (withEdge ⟨[("Res1", [])], [], [("R1", [])], [], []⟩
      ⟨"Recipe", "R1", "REQUIRES", "Resource", "Res1", some (.int 5)⟩) :=
  ((c3_requires_resolution ⟨[("Res1", [])], [], [("R1", [])], [], []⟩
    [("uniqueName", .str "R1")] [("ItemType", .str "Res1"), ("ItemCount", .int 5)]
    "R1" rfl rfl (by decide) (Or.inr ⟨5, rfl⟩)).1 "Res1" rfl).1 rfl

theorem requiredStr_eq_some (raw : RawRecord) (k s : String)
    (h : requiredStr raw k = some s) : List.lookup k raw = some (Value.str s) := by
  unfold requiredStr at h
  cases hl : List.lookup k raw with
  | none => rw [hl] at h; simp at h
  | some v =>
    rw [hl] at h
    cases v <;> simp_all

theorem Value.beq_null_eq_false_iff (v : Value) :
    Value.beq v .null = false ↔ v ≠ .null := by
  cases v <;> simp [Value.beq]

theorem validateRecipe_elim (raw : RawRecord) (n : VNode)
    (h : validateRecipe raw = some n) :
    n.rest = raw.filter (fun kv => kv.1 != "uniqueName") ∧
    ∃ s, List.lookup "resultType" raw = some (Value.str s) := by
  cases hu : requiredStr raw "uniqueName" with
  | none => simp [validateRecipe, hu] at h
  | some u =>
    cases hrt : requiredStr raw "resultType" with
    | none => simp [validateRecipe, hu, hrt] at h
    | some s =>
      simp only [validateRecipe, hu, hrt] at h
      split at h
      · rw [Option.some_inj] at h
        subst h
        exact ⟨rfl, s, requiredStr_eq_some raw _ s hrt⟩
      · simp at h

/-- C2 counterexample: a concrete recipe record for which the stored node
properties DO include `resultType` (only `uniqueName`, `ingredients` and
`secretIngredients` are excluded by the source's dump). -/
theorem c2_counterexample :
    (validateRecipe [("uniqueName", Value.str "R1"), ("resultType", Value.str "W1"),
        ("num", Value.int 2),
        ("ingredients", Value.list [Value.obj [("ItemType", Value.str "Res1"),
          ("ItemCount", Value.int 5)]])]).map
      (fun n => (List.lookup "resultType" (recipeProps n),
                 List.lookup "ingredients" (recipeProps n))) =
    some (some (Value.str "W1"), none) := rfl

/-- C2 amended: the recipe upsert stores every validated field EXCEPT
`uniqueName`, the two ingredient lists (`ingredients`, `secretIngredients`)
and `None`-valued fields; `resultType` is NOT excluded — it is stored as a
node property (second conjunct) in addition to being represented by the
BUILDS edge. -/
theorem c2_stored_props (raw : RawRecord) (n : VNode)
    (h : validateRecipe raw = some n) :
    (∀ k v, (k, v) ∈ recipeProps n ↔
      ((k, v) ∈ raw ∧ k ≠ "uniqueName" ∧ v ≠ Value.null ∧
       k ≠ "ingredients" ∧ k ≠ "secretIngredients")) ∧
    ∃ s, ("resultType", Value.str s) ∈ recipeProps n := by
  obtain ⟨hrest, s, hs⟩ := validateRecipe_elim raw n h
  have hchar : ∀ k v, (k, v) ∈ recipeProps n ↔
      ((k, v) ∈ raw ∧ k ≠ "uniqueName" ∧ v ≠ Value.null ∧
       k ≠ "ingredients" ∧ k ≠ "secretIngredients") := by
    intro k v
    unfold recipeProps dumpNonNull
    rw [hrest]
    simp only [List.mem_filter, Bool.and_eq_true, bne_iff_ne, ne_eq,
      Bool.not_eq_true', Value.beq_null_eq_false_iff]
    tauto
  refine ⟨hchar, s, ?_⟩
  exact (hchar "resultType" (Value.str s)).mpr
    ⟨lookup_eq_some_mem _ _ _ hs, by decide, by simp, by decide, by decide⟩

/-- C2 witness: the amended statement at a concrete validated recipe, whose
stored properties contain its `resultType`. -/
theorem c2_stored_props_witness :
    ∃ s, ("resultType", Value.str s) ∈ recipeProps
      ⟨"R1", [("resultType", Value.str "W1"), ("num", Value.int 2)]⟩ :=
  (c2_stored_props [("uniqueName", Value.str "R1"), ("resultType", Value.str "W1"),
    ("num", Value.int 2)]
    ⟨"R1", [("resultType", Value.str "W1"), ("num", Value.int 2)]⟩ rfl).2

/-!
## Claim C10 — per-record validation failure handling
-/

/-- The state effect of one `ingest_resources` iteration, logs aside. -/
def resourceStepState (st : GraphState) (raw : RawRecord) : GraphState :=
  match validateResource raw with
  | some n => { st with resources := upsertStore st.resources n.uniqueName (resourceProps n) }
  | none => st

/-- The state effect of one `ingest_recipes` node iteration, logs aside. -/
def recipeStepState (st : GraphState) (raw : RawRecord) : GraphState :=
  match validateRecipe raw with
  | some n => { st with recipes := upsertStore st.recipes n.uniqueName (recipeProps n) }
  | none => st

/-- The warning lines `ingest_resources` prints: one per invalid record. -/
def resourceWarnings (batch : List RawRecord) : List String :=
  batch.filterMap (fun raw => match validateResource raw with
    | some _ => none
    | none => some ("Warning: Validation error for resource: " ++ rawNameOrUnknown raw))

/-- The warning lines the `ingest_recipes` node loop prints. -/
def recipeWarnings (batch : List RawRecord) : List String :=
  batch.filterMap (fun raw => match validateRecipe raw with
    | some _ => none
    | none => some ("Warning: Validation error for recipe: " ++ rawNameOrUnknown raw))

theorem ingestResources_spec (st : GraphState) (logs : List String)
    (batch : List RawRecord) :
    batch.foldl resourceStep (st, logs) =
      (batch.foldl resourceStepState st, logs ++ resourceWarnings batch) := by
  induction batch generalizing st logs with
  | nil => simp [resourceWarnings]
  | cons raw batch ih =>
    simp only [List.foldl_cons]
    cases hv : validateResource raw with
    | some n =>
      rw [show resourceStep (st, logs) raw =
        (resourceStepState st raw, logs) by simp [resourceStep, resourceStepState, hv]]
      rw [ih]
      simp [resourceWarnings, hv]
    | none =>
      rw [show resourceStep (st, logs) raw =
        (resourceStepState st raw,
         logs ++ ["Warning: Validation error for resource: " ++ rawNameOrUnknown raw])
        by simp [resourceStep, resourceStepState, hv]]
      rw [ih]
      simp [resourceWarnings, hv]

theorem ingestRecipeNodes_spec (st : GraphState) (logs : List String)
    (batch : List RawRecord) :
    batch.foldl recipeStep (st, logs) =
      (batch.foldl recipeStepState st, logs ++ recipeWarnings batch) := by
  induction batch generalizing st logs with
  | nil => simp [recipeWarnings]
  | cons raw batch ih =>
    simp only [List.foldl_cons]
    cases hv : validateRecipe raw with
    | some n =>
      rw [show recipeStep (st, logs) raw =
        (recipeStepState st raw, logs) by simp [recipeStep, recipeStepState, hv]]
      rw [ih]
      simp [recipeWarnings, hv]
    | none =>
      rw [show recipeStep (st, logs) raw =
        (recipeStepState st raw,
         logs ++ ["Warning: Validation error for recipe: " ++ rawNameOrUnknown raw])
        by simp [recipeStep, recipeStepState, hv]]
      rw [ih]
      simp [recipeWarnings, hv]

/-- C10 confirmed: a record failing validation is logged and skipped without
aborting its batch — removing the invalid record from the batch leaves the
resulting graph state identical (so every remaining record is still validated
and upserted), and the emitted log consists of exactly one warning per
invalid record, the bad record's warning among them.  Stated for the
Resource pass and the Recipe node pass (the two passes the claim cites). -/
theorem c10_per_record (st : GraphState) (xs ys : List RawRecord)
    (badR badC : RawRecord)
    (h1 : validateResource badR = none) (h2 : validateRecipe badC = none) :
    ((ingestResources st (xs ++ badR :: ys)).1 = (ingestResources st (xs ++ ys)).1) ∧
    ((ingestResources st (xs ++ badR :: ys)).2 =
      resourceWarnings xs ++
      ["Warning: Validation error for resource: " ++ rawNameOrUnknown badR] ++
      resourceWarnings ys) ∧
    ((ingestRecipeNodes st (xs ++ badC :: ys)).1 = (ingestRecipeNodes st (xs ++ ys)).1) ∧
    ((ingestRecipeNodes st (xs ++ badC :: ys)).2 =
      recipeWarnings xs ++
      ["Warning: Validation error for recipe: " ++ rawNameOrUnknown badC] ++
      recipeWarnings ys) := by
  refine ⟨?_, ?_, ?_, ?_⟩
  · show (List.foldl resourceStep (st, []) (xs ++ badR :: ys)).1 =
      (List.foldl resourceStep (st, []) (xs ++ ys)).1
    rw [ingestResources_spec, ingestResources_spec]
    simp only [List.foldl_append, List.foldl_cons]
    rw [show resourceStepState (List.foldl resourceStepState st xs) badR =
      List.foldl resourceStepState st xs by simp [resourceStepState, h1]]
  · show (List.foldl resourceStep (st, []) (xs ++ badR :: ys)).2 = _
    rw [ingestResources_spec]
    simp [resourceWarnings, List.filterMap_append, h1]
  · show (List.foldl recipeStep (st, []) (xs ++ badC :: ys)).1 =
      (List.foldl recipeStep (st, []) (xs ++ ys)).1
    rw [ingestRecipeNodes_spec, ingestRecipeNodes_spec]
    simp only [List.foldl_append, List.foldl_cons]
    rw [show recipeStepState (List.foldl recipeStepState st xs) badC =
      List.foldl recipeStepState st xs by simp [recipeStepState, h1, h2]]
  · show (List.foldl recipeStep (st, []) (xs ++ badC :: ys)).2 = _
    rw [ingestRecipeNodes_spec]
    simp [recipeWarnings, List.filterMap_append, h2]

/-- C10 witness: a record missing its required fields (the empty record) is
skipped while its neighbours are still ingested: the resulting state equals
the state of the run without the bad record. -/
theorem c10_per_record_witness :
    (ingestResources ⟨[], [], [], [], []⟩
        ([[("uniqueName", Value.str "a"), ("name", Value.str "A")]] ++ [] ::
          [[("uniqueName", Value.str "b"), ("name", Value.str "B")]])).1 =
      (ingestResources ⟨[], [], [], [], []⟩
        ([[("uniqueName", Value.str "a"), ("name", Value.str "A")]] ++
          [[("uniqueName", Value.str "b"), ("name", Value.str "B")]])).1 :=
  (c10_per_record ⟨[], [], [], [], []⟩
    [[("uniqueName", Value.str "a"), ("name", Value.str "A")]]
    [[("uniqueName", Value.str "b"), ("name", Value.str "B")]] [] [] rfl rfl).1

/-!
## Claim C9 — edges only between existing nodes

Every edge-creating Cypher statement in the source first `MATCH`es both
endpoints, so an edge is merged only between nodes already in the store, and
no operation ever removes a node; the invariant below is preserved by every
pass and by the whole pipeline.
-/

/-- Does a node with the given label and key exist in the store? -/
def nodeInStore (st : GraphState) (label key : String) : Bool :=
  if label = "Weapon" then (List.lookup key st.weapons).isSome
  else if label = "Resource" then (List.lookup key st.resources).isSome
  else if label = "Recipe" then (List.lookup key st.recipes).isSome
  else if label = "Category" then decide (key ∈ st.categories)
  else false

/-- The graph-state invariant: both endpoints of every edge exist. -/
def edgesOk (st : GraphState) : Prop :=
  ∀ e ∈ st.edges, nodeInStore st e.srcLabel e.srcKey = true ∧
                  nodeInStore st e.tgtLabel e.tgtKey = true

/-- `t` has every node `st` has. -/
def storesExtend (st t : GraphState) : Prop :=
  (∀ k, (List.lookup k st.resources).isSome = true →
        (List.lookup k t.resources).isSome = true) ∧
  (∀ k, (List.lookup k st.weapons).isSome = true →
        (List.lookup k t.weapons).isSome = true) ∧
  (∀ k, (List.lookup k st.recipes).isSome = true →
        (List.lookup k t.recipes).isSome = true) ∧
  (∀ c, c ∈ st.categories → c ∈ t.categories)

theorem storesExtend_refl (st : GraphState) : storesExtend st st :=
  ⟨fun _ h => h, fun _ h => h, fun _ h => h, fun _ h => h⟩

theorem storesExtend_trans {s t u : GraphState}
    (h1 : storesExtend s t) (h2 : storesExtend t u) : storesExtend s u :=
  ⟨fun k h => h2.1 k (h1.1 k h),
   fun k h => h2.2.1 k (h1.2.1 k h),
   fun k h => h2.2.2.1 k (h1.2.2.1 k h),
   fun c h => h2.2.2.2 c (h1.2.2.2 c h)⟩

theorem lookup_of_map_keyfix {k : String} (store : List (String × Props))
    (f : String × Props → String × Props) (hf : ∀ e, (f e).1 = e.1) :
    (List.lookup k (store.map f)).isSome = (List.lookup k store).isSome := by
  induction store with
  | nil => rfl
  | cons e l ih =>
    simp only [List.map_cons, List.lookup, hf e]
    cases k == e.1 with
    | true => rfl
    | false => exact ih

theorem lookup_append_left {β : Type} (k : String) {l1 : List (String × β)}
    (l2 : List (String × β)) (h : (List.lookup k l1).isSome = true) :
    (List.lookup k (l1 ++ l2)).isSome = true := by
  induction l1 with
  | nil => simp [List.lookup] at h
  | cons e l ih =>
    rcases e with ⟨a, b⟩
    simp only [List.cons_append, List.lookup]
    cases hk : k == a with
    | true => rfl
    | false =>
      simp only [List.lookup, hk] at h
      exact ih h

theorem lookup_isSome_upsert (store : List (String × Props)) (u : String)
    (p : Props) (k : String) (h : (List.lookup k store).isSome = true) :
    (List.lookup k (upsertStore store u p)).isSome = true := by
  unfold upsertStore
  split
  · rw [lookup_of_map_keyfix store _ (fun e => by split <;> rfl)]
    exact h
  · exact lookup_append_left k [(u, p)] h

theorem lookup_isSome_of_mem {β : Type} {p : String × β} {l : List (String × β)}
    (h : p ∈ l) : (List.lookup p.1 l).isSome = true := by
  induction l with
  | nil => simp at h
  | cons e l ih =>
    rcases List.mem_cons.mp h with rfl | hmem
    · simp [List.lookup]
    · simp only [List.lookup]
      cases p.1 == e.1 with
      | true => rfl
      | false => exact ih hmem

theorem nodeInStore_mono {st t : GraphState} (hx : storesExtend st t)
    {l k : String} (h : nodeInStore st l k = true) : nodeInStore t l k = true := by
  unfold nodeInStore at h ⊢
  by_cases h1 : l = "Weapon"
  · subst h1
    rw [if_pos rfl] at h ⊢
    exact hx.2.1 k h
  · by_cases h2 : l = "Resource"
    · subst h2
      rw [if_neg (by decide), if_pos rfl] at h ⊢
      exact hx.1 k h
    · by_cases h3 : l = "Recipe"
      · subst h3
        rw [if_neg (by decide), if_neg (by decide), if_pos rfl] at h ⊢
        exact hx.2.2.1 k h
      · by_cases h4 : l = "Category"
        · subst h4
          rw [if_neg (by decide), if_neg (by decide), if_neg (by decide),
            if_pos rfl] at h ⊢
          rw [decide_eq_true_eq] at h ⊢
          exact hx.2.2.2 k h
        · rw [if_neg h1, if_neg h2, if_neg h3, if_neg h4] at h
          exact absurd h (by simp)

theorem nodeInStore_congr {st t : GraphState}
    (h1 : t.resources = st.resources) (h2 : t.weapons = st.weapons)
    (h3 : t.recipes = st.recipes) (h4 : t.categories = st.categories)
    (l k : String) : nodeInStore t l k = nodeInStore st l k := by
  unfold nodeInStore
  rw [h1, h2, h3, h4]

theorem edgesOk_extend {st t : GraphState} (h : edgesOk st) (hx : storesExtend st t)
    (hedges : ∀ e ∈ t.edges, e ∈ st.edges ∨
      (nodeInStore t e.srcLabel e.srcKey = true ∧
       nodeInStore t e.tgtLabel e.tgtKey = true)) :
    edgesOk t := by
  intro e he
  rcases hedges e he with hmem | hok
  · obtain ⟨ha, hb⟩ := h e hmem
    exact ⟨nodeInStore_mono hx ha, nodeInStore_mono hx hb⟩
  · exact hok

theorem mem_insertEdge {e : Edge} {es : List Edge} {x : Edge}
    (h : x ∈ insertEdge es e) : x ∈ es ∨ x = e := by
  unfold insertEdge at h
  split at h
  · exact Or.inl h
  · rcases List.mem_append.mp h with hm | hm
    · exact Or.inl hm
    · exact Or.inr (by simpa using hm)

theorem mem_foldl_insertEdge {α : Type} (f : α → Edge) (L : List α)
    (es : List Edge) (e : Edge)
    (h : e ∈ L.foldl (fun acc w => insertEdge acc (f w)) es) :
    e ∈ es ∨ ∃ w ∈ L, e = f w := by
  induction L generalizing es with
  | nil => exact Or.inl h
  | cons w L ih =>
    rcases ih (insertEdge es (f w)) h with hm | ⟨w2, hw2, he⟩
    · rcases mem_insertEdge hm with hm2 | hm2
      · exact Or.inl hm2
      · exact Or.inr ⟨w, by simp, hm2⟩
    · exact Or.inr ⟨w2, by simp [hw2], he⟩

theorem nodeInStore_weapon (st : GraphState) (k : String)
    (h : (List.lookup k st.weapons).isSome = true) :
    nodeInStore st "Weapon" k = true := by
  unfold nodeInStore
  rw [if_pos rfl]
  exact h

theorem nodeInStore_resource (st : GraphState) (k : String)
    (h : (List.lookup k st.resources).isSome = true) :
    nodeInStore st "Resource" k = true := by
  unfold nodeInStore
  rw [if_neg (by decide), if_pos rfl]
  exact h

theorem nodeInStore_recipe (st : GraphState) (k : String)
    (h : (List.lookup k st.recipes).isSome = true) :
    nodeInStore st "Recipe" k = true := by
  unfold nodeInStore
  rw [if_neg (by decide), if_neg (by decide), if_pos rfl]
  exact h

theorem nodeInStore_category (st : GraphState) (k : String)
    (h : k ∈ st.categories) : nodeInStore st "Category" k = true := by
  unfold nodeInStore
  rw [if_neg (by decide), if_neg (by decide), if_neg (by decide), if_pos rfl]
  exact decide_eq_true h

theorem resourceStepState_inv (st : GraphState) (raw : RawRecord) :
    (resourceStepState st raw).edges = st.edges ∧
    storesExtend st (resourceStepState st raw) := by
  unfold resourceStepState
  cases validateResource raw with
  | none => exact ⟨rfl, storesExtend_refl st⟩
  | some n =>
    exact ⟨rfl, ⟨fun k h => lookup_isSome_upsert _ _ _ k h,
      fun _ h => h, fun _ h => h, fun _ h => h⟩⟩

theorem recipeStepState_inv (st : GraphState) (raw : RawRecord) :
    (recipeStepState st raw).edges = st.edges ∧
    storesExtend st (recipeStepState st raw) := by
  unfold recipeStepState
  cases validateRecipe raw with
  | none => exact ⟨rfl, storesExtend_refl st⟩
  | some n =>
    exact ⟨rfl, ⟨fun _ h => h, fun _ h => h,
      fun k h => lookup_isSome_upsert _ _ _ k h, fun _ h => h⟩⟩

theorem foldl_resourceStepState_inv (batch : List RawRecord) (st : GraphState) :
    (List.foldl resourceStepState st batch).edges = st.edges ∧
    storesExtend st (List.foldl resourceStepState st batch) := by
  induction batch generalizing st with
  | nil => exact ⟨rfl, storesExtend_refl st⟩
  | cons raw batch ih =>
    simp only [List.foldl_cons]
    obtain ⟨he1, hx1⟩ := resourceStepState_inv st raw
    obtain ⟨he2, hx2⟩ := ih (resourceStepState st raw)
    exact ⟨he2.trans he1, storesExtend_trans hx1 hx2⟩

theorem foldl_recipeStepState_inv (batch : List RawRecord) (st : GraphState) :
    (List.foldl recipeStepState st batch).edges = st.edges ∧
    storesExtend st (List.foldl recipeStepState st batch) := by
  induction batch generalizing st with
  | nil => exact ⟨rfl, storesExtend_refl st⟩
  | cons raw batch ih =>
    simp only [List.foldl_cons]
    obtain ⟨he1, hx1⟩ := recipeStepState_inv st raw
    obtain ⟨he2, hx2⟩ := ih (recipeStepState st raw)
    exact ⟨he2.trans he1, storesExtend_trans hx1 hx2⟩

theorem weaponFold_inv (batch : List RawRecord) (st : GraphState)
    (cats logs : List String) :
    (batch.foldl weaponStep (st, cats, logs)).1.edges = st.edges ∧
    storesExtend st (batch.foldl weaponStep (st, cats, logs)).1 := by
  induction batch generalizing st cats logs with
  | nil => exact ⟨rfl, storesExtend_refl st⟩
  | cons raw batch ih =>
    simp only [List.foldl_cons]
    cases hv : validateWeapon raw with
    | none =>
      rw [show weaponStep (st, cats, logs) raw =
        (st, cats, logs ++ ["Warning: Validation error for weapon"]) by
          simp [weaponStep, hv]]
      exact ih st cats _
    | some n =>
      rw [show weaponStep (st, cats, logs) raw =
        ({ st with weapons := upsertStore st.weapons n.uniqueName (weaponProps n) },
          catsAfter n cats, logs) by simp [weaponStep, hv]]
      obtain ⟨he2, hx2⟩ := ih
        { st with weapons := upsertStore st.weapons n.uniqueName (weaponProps n) }
        (catsAfter n cats) logs
      refine ⟨he2.trans rfl, storesExtend_trans ?_ hx2⟩
      exact ⟨fun _ h => h, fun k h => lookup_isSome_upsert _ _ _ k h,
        fun _ h => h, fun _ h => h⟩

theorem mem_insertCat_self (l : List String) (c : String) : c ∈ insertCat l c := by
  unfold insertCat
  split
  · assumption
  · simp

theorem mem_insertCat_of_mem {l : List String} {d : String} (c : String)
    (h : d ∈ l) : d ∈ insertCat l c := by
  unfold insertCat
  split
  · exact h
  · exact List.mem_append_left _ h

theorem categoryStep_inv (st : GraphState) (c : String) (h : edgesOk st) :
    edgesOk (categoryStep st c) ∧ storesExtend st (categoryStep st c) := by
  have hcats : (categoryStep st c).categories = insertCat st.categories c := rfl
  have hx : storesExtend st (categoryStep st c) := by
    refine ⟨fun _ h => h, fun _ h => h, fun _ h => h, fun d hd => ?_⟩
    rw [hcats]
    exact mem_insertCat_of_mem c hd
  refine ⟨?_, hx⟩
  refine edgesOk_extend h hx ?_
  intro e he
  have he2 : e ∈ (linkedWeapons st.weapons c).foldl (fun acc w =>
        insertEdge acc ⟨"Weapon", w.1, "BELONGS_TO", "Category", c, none⟩)
      st.edges := he
  have hmem := mem_foldl_insertEdge
    (fun w : String × Props =>
      (⟨"Weapon", w.1, "BELONGS_TO", "Category", c, none⟩ : Edge))
    (linkedWeapons st.weapons c) st.edges e he2
  rcases hmem with hmem | ⟨w, hw, rfl⟩
  · exact Or.inl hmem
  · refine Or.inr ⟨?_, ?_⟩
    · refine nodeInStore_weapon _ _ ?_
      have hwmem : w ∈ st.weapons := (List.mem_filter.mp hw).1
      exact lookup_isSome_of_mem hwmem
    · refine nodeInStore_category _ _ ?_
      rw [hcats]
      exact mem_insertCat_self _ c

theorem createWeaponCategories_inv (cats : List String) (st : GraphState)
    (h : edgesOk st) :
    edgesOk (createWeaponCategories st cats) ∧
    storesExtend st (createWeaponCategories st cats) := by
  induction cats generalizing st with
  | nil => exact ⟨h, storesExtend_refl st⟩
  | cons c cats ih =>
    simp only [createWeaponCategories, List.foldl_cons]
    obtain ⟨h1, hx1⟩ := categoryStep_inv st c h
    obtain ⟨h2, hx2⟩ := ih (categoryStep st c) h1
    exact ⟨h2, storesExtend_trans hx1 hx2⟩

theorem strKeyIn_eq_some (store : List (String × Props)) (v : Option Value)
    (s : String) (h : strKeyIn store v = some s) :
    v = some (Value.str s) ∧ (List.lookup s store).isSome = true := by
  cases v with
  | none => simp [strKeyIn] at h
  | some val =>
    cases val with
    | str s0 =>
      simp only [strKeyIn] at h
      split at h
      · rename_i hsome
        obtain rfl := Option.some.inj h
        exact ⟨rfl, hsome⟩
      · simp at h
    | null => simp [strKeyIn] at h
    | bool b => simp [strKeyIn] at h
    | int n => simp [strKeyIn] at h
    | list l => simp [strKeyIn] at h
    | obj o => simp [strKeyIn] at h

theorem nodeInStore_withEdge (st : GraphState) (e : Edge) (l k : String) :
    nodeInStore { st with edges := insertEdge st.edges e } l k =
    nodeInStore st l k :=
  nodeInStore_congr rfl rfl rfl rfl l k

theorem edgesOk_withEdge (st : GraphState) (e : Edge) (h : edgesOk st)
    (hsrc : nodeInStore st e.srcLabel e.srcKey = true)
    (htgt : nodeInStore st e.tgtLabel e.tgtKey = true) :
    edgesOk { st with edges := insertEdge st.edges e } := by
  intro x hx
  rw [nodeInStore_withEdge, nodeInStore_withEdge]
  rcases mem_insertEdge hx with hm | rfl
  · exact h x hm
  · exact ⟨hsrc, htgt⟩

theorem processBuilds_inv (st : GraphState) (raw : RawRecord) (t : GraphState)
    (h : processBuilds st raw = some t) :
    t.resources = st.resources ∧ t.weapons = st.weapons ∧
    t.recipes = st.recipes ∧ t.categories = st.categories ∧
    (edgesOk st → edgesOk t) := by
  cases hrt : List.lookup "resultType" raw with
  | none =>
    simp only [processBuilds, hrt] at h
    obtain rfl := Option.some.inj h
    exact ⟨rfl, rfl, rfl, rfl, fun hk => hk⟩
  | some rt =>
    cases htr : rt.truthy with
    | false =>
      simp only [processBuilds, hrt, htr, Bool.not_false, if_true] at h
      obtain rfl := Option.some.inj h
      exact ⟨rfl, rfl, rfl, rfl, fun hk => hk⟩
    | true =>
      cases hrk : strKeyIn st.recipes (List.lookup "uniqueName" raw) with
      | none =>
        simp only [processBuilds, hrt, htr, Bool.not_true, if_false, hrk] at h
        obtain rfl := Option.some.inj h
        exact ⟨rfl, rfl, rfl, rfl, fun hk => hk⟩
      | some r =>
        cases hwk : strKeyIn st.weapons (some rt) with
        | some w =>
          cases hleg : legalEdgeQuantity ((List.lookup "num" raw).getD (.int 1)) with
          | false =>
            simp only [processBuilds, hrt, htr, Bool.not_true, if_false, hrk, hwk,
              hleg] at h
            simp at h
          | true =>
            simp only [processBuilds, hrt, htr, Bool.not_true, if_false, hrk, hwk,
              hleg, if_true] at h
            obtain rfl := Option.some.inj h
            refine ⟨rfl, rfl, rfl, rfl, fun hk => ?_⟩
            refine edgesOk_withEdge st _ hk ?_ ?_
            · exact nodeInStore_recipe st r (strKeyIn_eq_some _ _ _ hrk).2
            · exact nodeInStore_weapon st w (strKeyIn_eq_some _ _ _ hwk).2
        | none =>
          cases hsk : strKeyIn st.resources (some rt) with
          | some s2 =>
            cases hleg : legalEdgeQuantity ((List.lookup "num" raw).getD (.int 1)) with
            | false =>
              simp only [processBuilds, hrt, htr, Bool.not_true, if_false, hrk, hwk,
                hsk, hleg] at h
              simp at h
            | true =>
              simp only [processBuilds, hrt, htr, Bool.not_true, if_false, hrk, hwk,
                hsk, hleg, if_true] at h
              obtain rfl := Option.some.inj h
              refine ⟨rfl, rfl, rfl, rfl, fun hk => ?_⟩
              refine edgesOk_withEdge st _ hk ?_ ?_
              · exact nodeInStore_recipe st r (strKeyIn_eq_some _ _ _ hrk).2
              · exact nodeInStore_resource st s2 (strKeyIn_eq_some _ _ _ hsk).2
          | none =>
            simp only [processBuilds, hrt, htr, Bool.not_true, if_false, hrk, hwk,
              hsk] at h
            obtain rfl := Option.some.inj h
            exact ⟨rfl, rfl, rfl, rfl, fun hk => hk⟩

theorem processIngredient_inv (st : GraphState) (raw : RawRecord) (ing : Value)
    (t : GraphState) (h : processIngredient st raw ing = some t) :
    t.resources = st.resources ∧ t.weapons = st.weapons ∧
    t.recipes = st.recipes ∧ t.categories = st.categories ∧
    (edgesOk st → edgesOk t) := by
  cases ing with
  | obj fields =>
    cases hit : List.lookup "ItemType" fields with
    | none =>
      simp only [processIngredient, hit] at h
      obtain rfl := Option.some.inj h
      exact ⟨rfl, rfl, rfl, rfl, fun hk => hk⟩
    | some it =>
      cases htr : it.truthy with
      | false =>
        simp only [processIngredient, hit, htr, Bool.not_false, if_true] at h
        obtain rfl := Option.some.inj h
        exact ⟨rfl, rfl, rfl, rfl, fun hk => hk⟩
      | true =>
        cases hrk : strKeyIn st.recipes (List.lookup "uniqueName" raw) with
        | none =>
          simp only [processIngredient, hit, htr, Bool.not_true, if_false, hrk] at h
          obtain rfl := Option.some.inj h
          exact ⟨rfl, rfl, rfl, rfl, fun hk => hk⟩
        | some r =>
          cases hsk : strKeyIn st.resources (some it) with
          | some s2 =>
            cases hleg : legalEdgeQuantity
                ((List.lookup "ItemCount" fields).getD (.int 1)) with
            | false =>
              simp only [processIngredient, hit, htr, Bool.not_true, if_false, hrk,
                hsk, hleg] at h
              simp at h
            | true =>
              simp only [processIngredient, hit, htr, Bool.not_true, if_false, hrk,
                hsk, hleg, if_true] at h
              obtain rfl := Option.some.inj h
              refine ⟨rfl, rfl, rfl, rfl, fun hk => ?_⟩
              refine edgesOk_withEdge st _ hk ?_ ?_
              · exact nodeInStore_recipe st r (strKeyIn_eq_some _ _ _ hrk).2
              · exact nodeInStore_resource st s2 (strKeyIn_eq_some _ _ _ hsk).2
          | none =>
            simp only [processIngredient, hit, htr, Bool.not_true, if_false, hrk,
              hsk] at h
            obtain rfl := Option.some.inj h
            exact ⟨rfl, rfl, rfl, rfl, fun hk => hk⟩
  | null => simp [processIngredient] at h
  | bool b => simp [processIngredient] at h
  | int n => simp [processIngredient] at h
  | str s => simp [processIngredient] at h
  | list l => simp [processIngredient] at h

theorem foldIngredients_inv (raw : RawRecord) (ings : List Value) :
    ∀ st t, ings.foldlM (fun s ing => processIngredient s raw ing) st = some t →
    t.resources = st.resources ∧ t.weapons = st.weapons ∧
    t.recipes = st.recipes ∧ t.categories = st.categories ∧
    (edgesOk st → edgesOk t) := by
  induction ings with
  | nil =>
    intro st t h
    obtain rfl := Option.some.inj h
    exact ⟨rfl, rfl, rfl, rfl, fun hk => hk⟩
  | cons ing ings ih =>
    intro st t h
    rw [List.foldlM_cons] at h
    cases hstep : processIngredient st raw ing with
    | none => rw [hstep] at h; simp at h
    | some st1 =>
      rw [hstep] at h
      simp only [Option.bind_eq_bind, Option.some_bind] at h
      obtain ⟨e1, e2, e3, e4, hk1⟩ := processIngredient_inv st raw ing st1 hstep
      obtain ⟨f1, f2, f3, f4, hk2⟩ := ih st1 t h
      exact ⟨f1.trans e1, f2.trans e2, f3.trans e3, f4.trans e4,
        fun hk => hk2 (hk1 hk)⟩

theorem processRecipeRel_inv (st : GraphState) (raw : RawRecord) (t : GraphState)
    (h : processRecipeRel st raw = some t) :
    t.resources = st.resources ∧ t.weapons = st.weapons ∧
    t.recipes = st.recipes ∧ t.categories = st.categories ∧
    (edgesOk st → edgesOk t) := by
  unfold processRecipeRel at h
  cases hb : processBuilds st raw with
  | none => rw [hb] at h; simp at h
  | some st1 =>
    rw [hb] at h
    cases hi : rawIngredients raw with
    | none => rw [hi] at h; simp at h
    | some ings =>
      rw [hi] at h
      obtain ⟨e1, e2, e3, e4, hk1⟩ := processBuilds_inv st raw st1 hb
      obtain ⟨f1, f2, f3, f4, hk2⟩ := foldIngredients_inv raw ings st1 t h
      exact ⟨f1.trans e1, f2.trans e2, f3.trans e3, f4.trans e4,
        fun hk => hk2 (hk1 hk)⟩

theorem processRecipeRels_inv (batch : List RawRecord) :
    ∀ st t, processRecipeRels st batch = some t →
    t.resources = st.resources ∧ t.weapons = st.weapons ∧
    t.recipes = st.recipes ∧ t.categories = st.categories ∧
    (edgesOk st → edgesOk t) := by
  induction batch with
  | nil =>
    intro st t h
    obtain rfl := Option.some.inj h
    exact ⟨rfl, rfl, rfl, rfl, fun hk => hk⟩
  | cons raw batch ih =>
    intro st t h
    unfold processRecipeRels at h
    rw [List.foldlM_cons] at h
    cases hstep : processRecipeRel st raw with
    | none => rw [hstep] at h; simp at h
    | some st1 =>
      rw [hstep] at h
      simp only [Option.bind_eq_bind, Option.some_bind] at h
      obtain ⟨e1, e2, e3, e4, hk1⟩ := processRecipeRel_inv st raw st1 hstep
      obtain ⟨f1, f2, f3, f4, hk2⟩ := ih st1 t h
      exact ⟨f1.trans e1, f2.trans e2, f3.trans e3, f4.trans e4,
        fun hk => hk2 (hk1 hk)⟩

theorem ingestResources_edgesOk (st : GraphState) (batch : List RawRecord)
    (h : edgesOk st) : edgesOk (ingestResources st batch).1 := by
  have hspec : (ingestResources st batch).1 = List.foldl resourceStepState st batch := by
    show (batch.foldl resourceStep (st, [])).1 = _
    rw [ingestResources_spec]
  rw [hspec]
  obtain ⟨he, hx⟩ := foldl_resourceStepState_inv batch st
  refine edgesOk_extend h hx ?_
  intro e hmem
  rw [he] at hmem
  exact Or.inl hmem

theorem ingestWeapons_edgesOk (st : GraphState) (batch : List RawRecord)
    (h : edgesOk st) : edgesOk (ingestWeapons st batch).1 := by
  show edgesOk (createWeaponCategories
    (batch.foldl weaponStep (st, [], [])).1
    (batch.foldl weaponStep (st, [], [])).2.1)
  obtain ⟨he, hx⟩ := weaponFold_inv batch st [] []
  have h1 : edgesOk (batch.foldl weaponStep (st, [], [])).1 := by
    refine edgesOk_extend h hx ?_
    intro e hmem
    rw [he] at hmem
    exact Or.inl hmem
  exact (createWeaponCategories_inv _ _ h1).1

theorem ingestRecipeNodes_edgesOk (st : GraphState) (batch : List RawRecord)
    (h : edgesOk st) : edgesOk (ingestRecipeNodes st batch).1 := by
  have hspec : (ingestRecipeNodes st batch).1 = List.foldl recipeStepState st batch := by
    show (batch.foldl recipeStep (st, [])).1 = _
    rw [ingestRecipeNodes_spec]
  rw [hspec]
  obtain ⟨he, hx⟩ := foldl_recipeStepState_inv batch st
  refine edgesOk_extend h hx ?_
  intro e hmem
  rw [he] at hmem
  exact Or.inl hmem

/-- C9 confirmed: every edge-creating statement matches both endpoint nodes
first, and no operation removes nodes, so from any state satisfying the
invariant each pass — and the whole pipeline — yields a state in which every
BUILDS / REQUIRES / BELONGS_TO edge connects nodes present in the store
(`clear_database` re-establishes the invariant trivially). -/
theorem c9_edge_endpoints (st : GraphState) (res weap rec : List RawRecord)
    (h : edgesOk st) :
    edgesOk (ingestResources st res).1 ∧
    edgesOk (ingestWeapons st weap).1 ∧
    (∀ t, processRecipeRels st rec = some t → edgesOk t) ∧
    edgesOk (clearDatabase st) ∧
    (∀ t, pipeline st res weap rec = some t → edgesOk t) := by
  refine ⟨ingestResources_edgesOk st res h, ingestWeapons_edgesOk st weap h,
    ?_, ?_, ?_⟩
  · intro t ht
    exact (processRecipeRels_inv rec st t ht).2.2.2.2 h
  · intro e he
    exact absurd he (List.not_mem_nil e)
  · intro t ht
    simp only [pipeline, ingestRecipes] at ht
    cases hpr : processRecipeRels
        (ingestRecipeNodes (ingestWeapons (ingestResources st res).1 weap).1 rec).1
        rec with
    | none => rw [hpr] at ht; simp at ht
    | some s3 =>
      rw [hpr] at ht
      simp at ht
      subst ht
      have h1 := ingestResources_edgesOk st res h
      have h2 := ingestWeapons_edgesOk (ingestResources st res).1 weap h1
      have h3 := ingestRecipeNodes_edgesOk
        (ingestWeapons (ingestResources st res).1 weap).1 rec h2
      exact (processRecipeRels_inv rec _ s3 hpr).2.2.2.2 h3

/-- C9 witness: a concrete run from the empty store (which trivially
satisfies the invariant) keeps the invariant through the Resource pass. -/
theorem c9_edge_endpoints_witness :
    edgesOk (ingestResources ⟨[], [], [], [], []⟩
      [[("uniqueName", Value.str "a"), ("name", Value.str "A")]]).1 :=
  (c9_edge_endpoints ⟨[], [], [], [], []⟩
    [[("uniqueName", Value.str "a"), ("name", Value.str "A")]] [] []
    (fun e he => absurd he (List.not_mem_nil e))).1

/-!
## Claim C8 — idempotence of edge creation and of the whole ingestion run

`MERGE (a)-[:REL {quantity: $q}]->(b)` matches on the full pattern including
the quantity: re-applying the same endpoints with a DIFFERENT quantity
creates a second parallel edge rather than overwriting the attribute
(counterexample below).  With unchanged input every re-applied write matches
what the first run produced, and the whole pipeline is idempotent — proved
via an absorption law for the `SET +=` property merge.
-/

/-- The keys of `p` removed from `x` (the retained part of `SET +=`). -/
def dropKeys (x p : Props) : Props :=
  x.filter (fun kv => (List.lookup kv.1 p).isNone)

theorem mergeProps_eq (old new : Props) :
    mergeProps old new = dropKeys old new ++ new := rfl

/-- Iterated `dropKeys`. -/
def stripAll (x : Props) (ps : List Props) : Props :=
  ps.foldl dropKeys x

/-- Iterated `SET +=`: the property map after a sequence of merges. -/
def chainProps (x : Props) (ps : List Props) : Props :=
  ps.foldl mergeProps x

/-- The merged tail contributions of a merge sequence. -/
def tailsCat : List Props → Props
  | [] => []
  | p :: ps => stripAll p ps ++ tailsCat ps

theorem dropKeys_append (a b p : Props) :
    dropKeys (a ++ b) p = dropKeys a p ++ dropKeys b p := by
  unfold dropKeys
  exact List.filter_append a b

theorem stripAll_nil (x : Props) : stripAll x [] = x := rfl

theorem stripAll_cons (x p : Props) (ps : List Props) :
    stripAll x (p :: ps) = stripAll (dropKeys x p) ps := rfl

theorem stripAll_append_left (a b : Props) (ps : List Props) :
    stripAll (a ++ b) ps = stripAll a ps ++ stripAll b ps := by
  induction ps generalizing a b with
  | nil => rfl
  | cons p ps ih =>
    rw [stripAll_cons, dropKeys_append, ih, stripAll_cons, stripAll_cons]

theorem stripAll_eq_filter (ps : List Props) (x : Props) :
    stripAll x ps =
      x.filter (fun kv => ps.all (fun p => (List.lookup kv.1 p).isNone)) := by
  induction ps generalizing x with
  | nil =>
    rw [stripAll_nil]
    symm
    rw [List.filter_eq_self]
    intro a _
    simp
  | cons p ps ih =>
    rw [stripAll_cons, ih]
    unfold dropKeys
    rw [List.filter_filter]
    apply List.filter_congr
    intro a _
    rw [List.all_cons]
    exact Bool.and_comm _ _

theorem stripAll_sub (x : Props) (ps : List Props) {kv : String × Value}
    (h : kv ∈ stripAll x ps) : kv ∈ x := by
  rw [stripAll_eq_filter] at h
  exact (List.mem_filter.mp h).1

theorem stripAll_absorb (x : Props) (ps : List Props) :
    stripAll (stripAll x ps) ps = stripAll x ps := by
  rw [stripAll_eq_filter, stripAll_eq_filter, List.filter_filter]
  apply List.filter_congr
  intro a _
  exact Bool.and_self _

theorem stripAll_eq_nil (y : Props) (ps : List Props)
    (h : ∀ kv ∈ y, ∃ p ∈ ps, (List.lookup kv.1 p).isSome = true) :
    stripAll y ps = [] := by
  rw [stripAll_eq_filter]
  refine List.filter_eq_nil_iff.mpr ?_
  intro a ha hall
  obtain ⟨p, hp, hs⟩ := h a ha
  have hnone := List.all_eq_true.mp hall p hp
  cases hl : List.lookup a.1 p with
  | none => rw [hl] at hs; simp at hs
  | some v => rw [hl] at hnone; simp at hnone

theorem dropKeys_eq_nil (y p : Props)
    (h : ∀ kv ∈ y, (List.lookup kv.1 p).isSome = true) : dropKeys y p = [] := by
  refine List.filter_eq_nil_iff.mpr ?_
  intro a ha hnone
  have hs := h a ha
  cases hl : List.lookup a.1 p with
  | none => rw [hl] at hs; simp at hs
  | some v => rw [hl] at hnone; simp at hnone

theorem tailsCat_mem : ∀ (ps : List Props) (kv : String × Value),
    kv ∈ tailsCat ps → ∃ p ∈ ps, kv ∈ p := by
  intro ps
  induction ps with
  | nil => intro kv h; simp [tailsCat] at h
  | cons p ps ih =>
    intro kv h
    rcases List.mem_append.mp h with h1 | h1
    · exact ⟨p, by simp, stripAll_sub p ps h1⟩
    · obtain ⟨q, hq, hm⟩ := ih kv h1
      exact ⟨q, by simp [hq], hm⟩

theorem chainProps_cons (x p : Props) (ps : List Props) :
    chainProps x (p :: ps) = chainProps (mergeProps x p) ps := rfl

theorem chainProps_formula (ps : List Props) (x : Props) :
    chainProps x ps = stripAll x ps ++ tailsCat ps := by
  induction ps generalizing x with
  | nil => simp [chainProps, stripAll, tailsCat]
  | cons p ps ih =>
    rw [chainProps_cons, ih, mergeProps_eq, stripAll_append_left, stripAll_cons]
    rw [List.append_assoc]
    rfl

theorem chainProps_absorb (x : Props) (ps : List Props) :
    chainProps (chainProps x ps) ps = chainProps x ps := by
  rw [chainProps_formula ps x, chainProps_formula ps, stripAll_append_left,
    stripAll_absorb]
  rw [stripAll_eq_nil (tailsCat ps) ps (fun kv hkv => by
    obtain ⟨p, hp, hmem⟩ := tailsCat_mem ps kv hkv
    exact ⟨p, hp, lookup_isSome_of_mem hmem⟩)]
  simp

theorem chainProps_absorb2 (p : Props) (ps : List Props) :
    chainProps (chainProps p ps) (p :: ps) = chainProps p ps := by
  rw [chainProps_cons, mergeProps_eq]
  rw [chainProps_formula ps p, dropKeys_append,
    dropKeys_eq_nil (stripAll p ps) p
      (fun kv hkv => lookup_isSome_of_mem (stripAll_sub p ps hkv))]
  rw [List.nil_append, chainProps_formula ps, stripAll_append_left,
    stripAll_eq_nil (dropKeys (tailsCat ps) p) ps (fun kv hkv => by
      have hm : kv ∈ tailsCat ps := (List.mem_filter.mp hkv).1
      obtain ⟨q, hq, hmem⟩ := tailsCat_mem ps kv hm
      exact ⟨q, hq, lookup_isSome_of_mem hmem⟩),
    List.nil_append]

/-- The property maps that a write sequence applies to key `k`, in order. -/
def sels (L : List (String × Props)) (k : String) : List Props :=
  (L.filter (fun e => e.1 == k)).map (fun e => e.2)

/-- A sequence of keyed upserts against one node store. -/
def foldU (s L : List (String × Props)) : List (String × Props) :=
  L.foldl (fun acc e => upsertStore acc e.1 e.2) s

/-- The entries a write sequence appends for keys absent from the store, in
first-occurrence order, each already carrying its fully merged properties. -/
def newEntries (s L : List (String × Props)) : List (String × Props) :=
  match L with
  | [] => []
  | (u, p) :: L2 =>
    if (List.lookup u s).isSome then newEntries s L2
    else (u, chainProps p (sels L2 u)) :: newEntries (s ++ [(u, p)]) L2

theorem sels_cons (u : String) (p : Props) (L : List (String × Props)) (k : String) :
    sels ((u, p) :: L) k = if u == k then p :: sels L k else sels L k := by
  unfold sels
  rw [List.filter_cons]
  split
  · simp
  · rfl

theorem sels_append (L1 L2 : List (String × Props)) (k : String) :
    sels (L1 ++ L2) k = sels L1 k ++ sels L2 k := by
  unfold sels
  rw [List.filter_append, List.map_append]

theorem sels_eq_nil (L1 : List (String × Props)) (k : String)
    (h : ∀ q ∈ L1, q.1 ≠ k) : sels L1 k = [] := by
  unfold sels
  rw [List.filter_eq_nil_iff.mpr (fun a ha hb => h a ha (by simpa using hb))]
  rfl

theorem lookup_append_isSome {β : Type} (k : String) (l1 l2 : List (String × β)) :
    (List.lookup k (l1 ++ l2)).isSome =
      ((List.lookup k l1).isSome || (List.lookup k l2).isSome) := by
  induction l1 with
  | nil => simp [List.lookup]
  | cons e l ih =>
    rcases e with ⟨a, b⟩
    simp only [List.cons_append, List.lookup]
    cases k == a with
    | true => rfl
    | false => exact ih

theorem lookup_none_keys {β : Type} (u : String) (s : List (String × β))
    (h : (List.lookup u s).isSome = false) : ∀ e ∈ s, e.1 ≠ u := by
  intro e he heq
  rw [← heq] at h
  rw [lookup_isSome_of_mem he] at h
  simp at h

theorem upsert_present_eq (s : List (String × Props)) (u : String) (p : Props)
    (h : (List.lookup u s).isSome = true) :
    upsertStore s u p =
      s.map (fun e => if e.1 == u then (e.1, mergeProps e.2 p) else e) := by
  unfold upsertStore
  rw [if_pos h]

theorem upsert_absent_eq (s : List (String × Props)) (u : String) (p : Props)
    (h : (List.lookup u s).isSome = false) :
    upsertStore s u p = s ++ [(u, p)] := by
  unfold upsertStore
  rw [if_neg (by simp [h])]

theorem lookup_isSome_upsert_eq (s : List (String × Props)) (u : String)
    (p : Props) (k : String) :
    (List.lookup k (upsertStore s u p)).isSome =
      ((List.lookup k s).isSome || (k == u)) := by
  cases hp : (List.lookup u s).isSome with
  | true =>
    rw [upsert_present_eq s u p hp,
      lookup_of_map_keyfix s _ (fun e => by split <;> rfl)]
    by_cases hk : (k == u) = true
    · have : k = u := by simpa using hk
      subst this
      simp [hp]
    · simp [Bool.eq_false_iff.mpr hk]
  | false =>
    have hone : (List.lookup k [(u, p)]).isSome = (k == u) := by
      simp only [List.lookup]
      cases k == u <;> rfl
    rw [upsert_absent_eq s u p hp, lookup_append_isSome, hone]

theorem newEntries_congr : ∀ (L s s2 : List (String × Props)),
    (∀ k, (List.lookup k s).isSome = (List.lookup k s2).isSome) →
    newEntries s L = newEntries s2 L := by
  intro L
  induction L with
  | nil => intro s s2 _; rfl
  | cons e L2 ih =>
    intro s s2 hp
    rcases e with ⟨u, p⟩
    simp only [newEntries]
    rw [hp u]
    split
    · exact ih s s2 hp
    · congr 1
      exact ih (s ++ [(u, p)]) (s2 ++ [(u, p)])
        (fun k => by rw [lookup_append_isSome, lookup_append_isSome, hp k])

theorem map_fst_snd {α β : Type} (s : List (α × β)) :
    s.map (fun e => (e.1, e.2)) = s := by
  induction s with
  | nil => rfl
  | cons e l ih => simp [ih]

theorem foldU_char : ∀ (L s : List (String × Props)),
    foldU s L = s.map (fun e => (e.1, chainProps e.2 (sels L e.1))) ++ newEntries s L := by
  intro L
  induction L with
  | nil =>
    intro s
    show s = s.map (fun e => (e.1, chainProps e.2 (sels [] e.1))) ++ newEntries s []
    rw [show (newEntries s [] : List (String × Props)) = [] from rfl, List.append_nil]
    exact (map_fst_snd s).symm
  | cons e L2 ih =>
    intro s
    rcases e with ⟨u, p⟩
    show foldU (upsertStore s u p) L2 = _
    rw [ih (upsertStore s u p)]
    cases hp : (List.lookup u s).isSome with
    | true =>
      rw [upsert_present_eq s u p hp, List.map_map]
      have hne : newEntries (upsertStore s u p) L2 = newEntries s L2 := by
        refine newEntries_congr L2 _ s (fun k => ?_)
        rw [lookup_isSome_upsert_eq]
        by_cases hk : (k == u) = true
        · have : k = u := by simpa using hk
          subst this
          simp [hp]
        · simp [Bool.eq_false_iff.mpr hk]
      rw [upsert_present_eq s u p hp] at hne
      rw [hne]
      have hnewE : newEntries s ((u, p) :: L2) = newEntries s L2 := by
        simp only [newEntries]
        rw [hp]
        rfl
      rw [hnewE]
      congr 1
      apply List.map_congr_left
      intro a _
      by_cases hk : (a.1 == u) = true
      · have hau : a.1 = u := by simpa using hk
        show (fun e => (e.1, chainProps e.2 (sels L2 e.1)))
            (if a.1 == u then (a.1, mergeProps a.2 p) else a) = _
        rw [if_pos hk]
        show (a.1, chainProps (mergeProps a.2 p) (sels L2 a.1)) =
          (a.1, chainProps a.2 (sels ((u, p) :: L2) a.1))
        rw [sels_cons, if_pos (by simpa using hau.symm), chainProps_cons]
      · show (fun e => (e.1, chainProps e.2 (sels L2 e.1)))
            (if a.1 == u then (a.1, mergeProps a.2 p) else a) = _
        rw [if_neg hk]
        show (a.1, chainProps a.2 (sels L2 a.1)) =
          (a.1, chainProps a.2 (sels ((u, p) :: L2) a.1))
        rw [sels_cons, if_neg (by
          intro hc
          exact hk (by simpa using (eq_of_beq hc).symm))]
    | false =>
      rw [upsert_absent_eq s u p hp, List.map_append]
      have hnewE : newEntries s ((u, p) :: L2) =
          (u, chainProps p (sels L2 u)) :: newEntries (s ++ [(u, p)]) L2 := by
        simp only [newEntries]
        rw [hp]
        rfl
      rw [hnewE]
      have hmapone : List.map (fun e => (e.1, chainProps e.2 (sels L2 e.1)))
          [((u : String), (p : Props))] = [(u, chainProps p (sels L2 u))] := rfl
      rw [hmapone]
      have hmaps : s.map (fun e => (e.1, chainProps e.2 (sels L2 e.1))) =
          s.map (fun e => (e.1, chainProps e.2 (sels ((u, p) :: L2) e.1))) := by
        apply List.map_congr_left
        intro a ha
        have hne2 : a.1 ≠ u := lookup_none_keys u s hp a ha
        rw [sels_cons, if_neg (by
          intro hc
          exact hne2 (eq_of_beq hc).symm)]
      rw [hmaps, List.append_assoc]
      rfl

theorem upsert_self_present (s : List (String × Props)) (u : String) (p : Props) :
    (List.lookup u (upsertStore s u p)).isSome = true := by
  rw [lookup_isSome_upsert_eq]
  simp

theorem foldU_presence_mono : ∀ (L s : List (String × Props)) (k : String),
    (List.lookup k s).isSome = true → (List.lookup k (foldU s L)).isSome = true := by
  intro L
  induction L with
  | nil => intro s k h; exact h
  | cons e L2 ih =>
    intro s k h
    exact ih (upsertStore s e.1 e.2) k (lookup_isSome_upsert _ _ _ k h)

theorem foldU_mem_present : ∀ (L s : List (String × Props)) (e : String × Props),
    e ∈ L → (List.lookup e.1 (foldU s L)).isSome = true := by
  intro L
  induction L with
  | nil => intro s e h; simp at h
  | cons x L2 ih =>
    intro s e h
    rcases List.mem_cons.mp h with rfl | hmem
    · exact foldU_presence_mono L2 (upsertStore s e.1 e.2) e.1
        (upsert_self_present s e.1 e.2)
    · exact ih (upsertStore s x.1 x.2) e hmem

theorem newEntries_nil_of_present : ∀ (L s : List (String × Props)),
    (∀ e ∈ L, (List.lookup e.1 s).isSome = true) → newEntries s L = [] := by
  intro L
  induction L with
  | nil => intro s _; rfl
  | cons e L2 ih =>
    intro s h
    rcases e with ⟨u, p⟩
    simp only [newEntries]
    rw [h (u, p) (by simp)]
    exact ih s (fun x hx => h x (by simp [hx]))

theorem newEntries_keys_absent : ∀ (L s : List (String × Props))
    (e : String × Props), e ∈ newEntries s L →
    (List.lookup e.1 s).isSome = false := by
  intro L
  induction L with
  | nil => intro s e h; simp [newEntries] at h
  | cons x L2 ih =>
    intro s e h
    rcases x with ⟨u, p⟩
    simp only [newEntries] at h
    split at h
    · exact ih s e h
    · rename_i hup
      have hups : (List.lookup u s).isSome = false := by
        cases hx : (List.lookup u s).isSome with
        | false => rfl
        | true => exact absurd hx hup
      rcases List.mem_cons.mp h with rfl | h2
      · exact hups
      · have := ih (s ++ [(u, p)]) e h2
        rw [lookup_append_isSome] at this
        rcases Bool.or_eq_false_iff.mp this with ⟨h3, -⟩
        exact h3

theorem newEntries_mem : ∀ (L s : List (String × Props)) (e : String × Props),
    e ∈ newEntries s L →
    ∃ L1 p L2, L = L1 ++ (e.1, p) :: L2 ∧ (∀ q ∈ L1, q.1 ≠ e.1) ∧
      e.2 = chainProps p (sels L2 e.1) := by
  intro L
  induction L with
  | nil => intro s e h; simp [newEntries] at h
  | cons x L2 ih =>
    intro s e h
    rcases x with ⟨u, p0⟩
    simp only [newEntries] at h
    split at h
    · rename_i hup
      obtain ⟨L1, q, L2b, hde, hkeys, hval⟩ := ih s e h
      have habs := newEntries_keys_absent L2 s e h
      refine ⟨(u, p0) :: L1, q, L2b, by rw [hde]; rfl, ?_, hval⟩
      intro x hx
      rcases List.mem_cons.mp hx with rfl | hx2
      · show u ≠ e.1
        intro hequ
        rw [← hequ] at habs
        rw [habs] at hup
        simp at hup
      · exact hkeys x hx2
    · rcases List.mem_cons.mp h with rfl | h2
      · exact ⟨[], p0, L2, rfl, by simp, rfl⟩
      · obtain ⟨L1, q, L2b, hde, hkeys, hval⟩ := ih (s ++ [(u, p0)]) e h2
        have habs := newEntries_keys_absent L2 (s ++ [(u, p0)]) e h2
        rw [lookup_append_isSome] at habs
        obtain ⟨-, habs2⟩ := Bool.or_eq_false_iff.mp habs
        have hneu : e.1 ≠ u := by
          intro hequ
          rw [hequ] at habs2
          simp [List.lookup] at habs2
        refine ⟨(u, p0) :: L1, q, L2b, by rw [hde]; rfl, ?_, hval⟩
        intro x hx
        rcases List.mem_cons.mp hx with rfl | hx2
        · exact fun hc => hneu hc.symm
        · exact hkeys x hx2

theorem foldU_idem (s L : List (String × Props)) :
    foldU (foldU s L) L = foldU s L := by
  rw [foldU_char L (foldU s L),
    newEntries_nil_of_present L (foldU s L) (fun e he => foldU_mem_present L s e he),
    List.append_nil]
  have hpt : ∀ e ∈ foldU s L,
      (fun e => (e.1, chainProps e.2 (sels L e.1))) e = e := by
    intro e he
    rw [foldU_char L s] at he
    rcases List.mem_append.mp he with h1 | h1
    · obtain ⟨a, _, rfl⟩ := List.mem_map.mp h1
      show (a.1, chainProps (chainProps a.2 (sels L a.1)) (sels L a.1)) =
        (a.1, chainProps a.2 (sels L a.1))
      rw [chainProps_absorb]
    · obtain ⟨L1, q, L2, hde, hkeys, hval⟩ := newEntries_mem L s e h1
      have hsels : sels L e.1 = q :: sels L2 e.1 := by
        rw [hde, sels_append, sels_eq_nil L1 e.1 hkeys, List.nil_append, sels_cons,
          if_pos (by simp)]
      show (e.1, chainProps e.2 (sels L e.1)) = e
      rw [hsels, hval, chainProps_absorb2, ← hval]
  rw [List.map_congr_left hpt, List.map_id']

/-- The keyed writes the Resource pass issues: one per valid record. -/
def resourceKVs (batch : List RawRecord) : List (String × Props) :=
  batch.filterMap (fun raw =>
    (validateResource raw).map (fun n => (n.uniqueName, resourceProps n)))

/-- The keyed writes the Weapon node pass issues. -/
def weaponKVs (batch : List RawRecord) : List (String × Props) :=
  batch.filterMap (fun raw =>
    (validateWeapon raw).map (fun n => (n.uniqueName, weaponProps n)))

/-- The keyed writes the Recipe node pass issues. -/
def recipeKVs (batch : List RawRecord) : List (String × Props) :=
  batch.filterMap (fun raw =>
    (validateRecipe raw).map (fun n => (n.uniqueName, recipeProps n)))

/-- The category accumulator over a whole weapon batch. -/
def catsFold (batch : List RawRecord) (cats : List String) : List String :=
  batch.foldl (fun cs raw =>
    match validateWeapon raw with
    | some n => catsAfter n cs
    | none => cs) cats

/-- The warnings of the weapon node loop. -/
def weaponWarns (batch : List RawRecord) : List String :=
  batch.filterMap (fun raw =>
    match validateWeapon raw with
    | some _ => none
    | none => some "Warning: Validation error for weapon")

theorem setResources_self (st : GraphState) :
    { st with resources := st.resources } = st := rfl

theorem setWeapons_self (st : GraphState) :
    { st with weapons := st.weapons } = st := rfl

theorem setRecipes_self (st : GraphState) :
    { st with recipes := st.recipes } = st := rfl

theorem setEdges_self (st : GraphState) :
    { st with edges := st.edges } = st := rfl

theorem resourcesFold_proj : ∀ (batch : List RawRecord) (st : GraphState),
    List.foldl resourceStepState st batch =
      { st with resources := foldU st.resources (resourceKVs batch) } := by
  intro batch
  induction batch with
  | nil => intro st; exact (setResources_self st).symm
  | cons raw batch ih =>
    intro st
    simp only [List.foldl_cons]
    cases hv : validateResource raw with
    | none =>
      rw [show resourceStepState st raw = st from by simp [resourceStepState, hv],
        ih st,
        show resourceKVs (raw :: batch) = resourceKVs batch from by
          simp [resourceKVs, List.filterMap_cons, hv]]
    | some n =>
      rw [show resourceStepState st raw =
          { st with resources := upsertStore st.resources n.uniqueName (resourceProps n) }
        from by simp [resourceStepState, hv], ih,
        show resourceKVs (raw :: batch) =
          (n.uniqueName, resourceProps n) :: resourceKVs batch from by
          simp [resourceKVs, List.filterMap_cons, hv]]
      rfl

theorem recipesFold_proj : ∀ (batch : List RawRecord) (st : GraphState),
    List.foldl recipeStepState st batch =
      { st with recipes := foldU st.recipes (recipeKVs batch) } := by
  intro batch
  induction batch with
  | nil => intro st; exact (setRecipes_self st).symm
  | cons raw batch ih =>
    intro st
    simp only [List.foldl_cons]
    cases hv : validateRecipe raw with
    | none =>
      rw [show recipeStepState st raw = st from by simp [recipeStepState, hv],
        ih st,
        show recipeKVs (raw :: batch) = recipeKVs batch from by
          simp [recipeKVs, List.filterMap_cons, hv]]
    | some n =>
      rw [show recipeStepState st raw =
          { st with recipes := upsertStore st.recipes n.uniqueName (recipeProps n) }
        from by simp [recipeStepState, hv], ih,
        show recipeKVs (raw :: batch) =
          (n.uniqueName, recipeProps n) :: recipeKVs batch from by
          simp [recipeKVs, List.filterMap_cons, hv]]
      rfl

theorem weaponsFold_proj : ∀ (batch : List RawRecord) (st : GraphState)
    (cats logs : List String),
    batch.foldl weaponStep (st, cats, logs) =
      ({ st with weapons := foldU st.weapons (weaponKVs batch) },
       catsFold batch cats, logs ++ weaponWarns batch) := by
  intro batch
  induction batch with
  | nil =>
    intro st cats logs
    rw [show weaponKVs [] = [] from rfl]
    rw [show (foldU st.weapons [] : List (String × Props)) = st.weapons from rfl]
    rw [setWeapons_self]
    simp [catsFold, weaponWarns]
  | cons raw batch ih =>
    intro st cats logs
    simp only [List.foldl_cons]
    cases hv : validateWeapon raw with
    | none =>
      rw [show weaponStep (st, cats, logs) raw =
          (st, cats, logs ++ ["Warning: Validation error for weapon"]) from by
        simp [weaponStep, hv]]
      rw [ih st cats _,
        show weaponKVs (raw :: batch) = weaponKVs batch from by
          simp [weaponKVs, List.filterMap_cons, hv],
        show catsFold (raw :: batch) cats = catsFold batch cats from by
          simp [catsFold, hv],
        show weaponWarns (raw :: batch) =
          "Warning: Validation error for weapon" :: weaponWarns batch from by
          simp [weaponWarns, List.filterMap_cons, hv]]
      simp
    | some n =>
      rw [show weaponStep (st, cats, logs) raw =
          ({ st with weapons := upsertStore st.weapons n.uniqueName (weaponProps n) },
           catsAfter n cats, logs) from by simp [weaponStep, hv]]
      rw [ih, show weaponKVs (raw :: batch) =
          (n.uniqueName, weaponProps n) :: weaponKVs batch from by
          simp [weaponKVs, List.filterMap_cons, hv],
        show catsFold (raw :: batch) cats = catsFold batch (catsAfter n cats) from by
          simp [catsFold, hv],
        show weaponWarns (raw :: batch) = weaponWarns batch from by
          simp [weaponWarns, List.filterMap_cons, hv]]
      rfl

theorem edgeMem_insertEdge_self (es : List Edge) (e : Edge) :
    edgeMem e (insertEdge es e) = true := by
  unfold insertEdge
  split
  · assumption
  · simp [edgeMem, List.any_append, Edge.beqRefl]

theorem insertEdge_noop (es : List Edge) (e : Edge) (h : edgeMem e es = true) :
    insertEdge es e = es := by
  unfold insertEdge
  rw [if_pos h]

theorem edgeMem_insert_mono (es : List Edge) (e x : Edge)
    (h : edgeMem x es = true) : edgeMem x (insertEdge es e) = true := by
  unfold insertEdge
  split
  · exact h
  · simp only [edgeMem, List.any_append]
    rw [show (List.any es fun y => Edge.beq y x) = true from h]
    rfl

theorem edgeMem_foldl_insert_mono {α : Type} (f : α → Edge) :
    ∀ (L : List α) (es : List Edge) (x : Edge), edgeMem x es = true →
    edgeMem x (L.foldl (fun acc w => insertEdge acc (f w)) es) = true := by
  intro L
  induction L with
  | nil => intro es x h; exact h
  | cons w L ih =>
    intro es x h
    exact ih (insertEdge es (f w)) x (edgeMem_insert_mono es (f w) x h)

theorem foldl_insertEdge_mem {α : Type} (f : α → Edge) :
    ∀ (L : List α) (es : List Edge) (w : α), w ∈ L →
    edgeMem (f w) (L.foldl (fun acc w2 => insertEdge acc (f w2)) es) = true := by
  intro L
  induction L with
  | nil => intro es w h; simp at h
  | cons w0 L ih =>
    intro es w h
    rcases List.mem_cons.mp h with rfl | hmem
    · exact edgeMem_foldl_insert_mono f L (insertEdge es (f w)) (f w)
        (edgeMem_insertEdge_self es (f w))
    · exact ih (insertEdge es (f w0)) w hmem

theorem foldl_insert_noop {α : Type} (f : α → Edge) :
    ∀ (L : List α) (es : List Edge), (∀ w ∈ L, edgeMem (f w) es = true) →
    L.foldl (fun acc w => insertEdge acc (f w)) es = es := by
  intro L
  induction L with
  | nil => intro es _; rfl
  | cons w L ih =>
    intro es h
    simp only [List.foldl_cons]
    rw [insertEdge_noop es (f w) (h w (by simp))]
    exact ih es (fun x hx => h x (by simp [hx]))

theorem categoryStep_fields (st : GraphState) (c : String) :
    (categoryStep st c).resources = st.resources ∧
    (categoryStep st c).weapons = st.weapons ∧
    (categoryStep st c).recipes = st.recipes ∧
    (categoryStep st c).categories = insertCat st.categories c ∧
    (categoryStep st c).edges = belongsEdges st.weapons st.edges c :=
  ⟨rfl, rfl, rfl, rfl, rfl⟩

theorem createWeaponCategories_fields : ∀ (cats : List String) (st : GraphState),
    (createWeaponCategories st cats).resources = st.resources ∧
    (createWeaponCategories st cats).weapons = st.weapons ∧
    (createWeaponCategories st cats).recipes = st.recipes := by
  intro cats
  induction cats with
  | nil => intro st; exact ⟨rfl, rfl, rfl⟩
  | cons c cats ih =>
    intro st
    obtain ⟨h1, h2, h3⟩ := ih (categoryStep st c)
    exact ⟨h1, h2, h3⟩

theorem createWeaponCategories_edges_mono : ∀ (cats : List String)
    (st : GraphState) (x : Edge), edgeMem x st.edges = true →
    edgeMem x (createWeaponCategories st cats).edges = true := by
  intro cats
  induction cats with
  | nil => intro st x h; exact h
  | cons c cats ih =>
    intro st x h
    refine ih (categoryStep st c) x ?_
    show edgeMem x (belongsEdges st.weapons st.edges c) = true
    exact edgeMem_foldl_insert_mono _ (linkedWeapons st.weapons c) st.edges x h

theorem createWeaponCategories_cats_mono : ∀ (cats : List String)
    (st : GraphState) (c : String), c ∈ st.categories →
    c ∈ (createWeaponCategories st cats).categories := by
  intro cats
  induction cats with
  | nil => intro st c h; exact h
  | cons c0 cats ih =>
    intro st c h
    exact ih (categoryStep st c0) c (mem_insertCat_of_mem c0 h)

theorem createWeaponCategories_cats_mem : ∀ (cats : List String)
    (st : GraphState) (c : String), c ∈ cats →
    c ∈ (createWeaponCategories st cats).categories := by
  intro cats
  induction cats with
  | nil => intro st c h; simp at h
  | cons c0 cats ih =>
    intro st c h
    rcases List.mem_cons.mp h with rfl | hmem
    · exact createWeaponCategories_cats_mono cats (categoryStep st c) c
        (mem_insertCat_self st.categories c)
    · exact ih (categoryStep st c0) c hmem

theorem createWeaponCategories_edge_mem : ∀ (cats : List String)
    (st : GraphState) (c : String), c ∈ cats →
    ∀ w ∈ linkedWeapons st.weapons c,
    edgeMem ⟨"Weapon", w.1, "BELONGS_TO", "Category", c, none⟩
      (createWeaponCategories st cats).edges = true := by
  intro cats
  induction cats with
  | nil => intro st c h; simp at h
  | cons c0 cats ih =>
    intro st c h w hw
    rcases List.mem_cons.mp h with rfl | hmem
    · refine createWeaponCategories_edges_mono cats (categoryStep st c) _ ?_
      show edgeMem _ (belongsEdges st.weapons st.edges c) = true
      exact foldl_insertEdge_mem _ (linkedWeapons st.weapons c) st.edges w hw
    · exact ih (categoryStep st c0) c hmem w hw

theorem categoryStep_noop (st : GraphState) (c : String)
    (hc : c ∈ st.categories)
    (he : ∀ w ∈ linkedWeapons st.weapons c,
      edgeMem ⟨"Weapon", w.1, "BELONGS_TO", "Category", c, none⟩ st.edges = true) :
    categoryStep st c = st := by
  show (⟨st.resources, st.weapons, st.recipes, insertCat st.categories c,
    belongsEdges st.weapons st.edges c⟩ : GraphState) = st
  rw [show insertCat st.categories c = st.categories from by
    unfold insertCat; rw [if_pos hc]]
  rw [show belongsEdges st.weapons st.edges c = st.edges from
    foldl_insert_noop _ (linkedWeapons st.weapons c) st.edges he]

theorem createWeaponCategories_noop : ∀ (cats : List String) (st : GraphState),
    (∀ c ∈ cats, c ∈ st.categories ∧
      ∀ w ∈ linkedWeapons st.weapons c,
      edgeMem ⟨"Weapon", w.1, "BELONGS_TO", "Category", c, none⟩ st.edges = true) →
    createWeaponCategories st cats = st := by
  intro cats
  induction cats with
  | nil => intro st _; rfl
  | cons c cats ih =>
    intro st h
    obtain ⟨hc, he⟩ := h c (by simp)
    show createWeaponCategories (categoryStep st c) cats = st
    rw [categoryStep_noop st c hc he]
    exact ih st (fun x hx => h x (by simp [hx]))

theorem processBuilds_shape (st : GraphState) (raw : RawRecord) (t : GraphState)
    (h : processBuilds st raw = some t) :
    t = st ∨ ∃ e, t = { st with edges := insertEdge st.edges e } := by
  cases hrt : List.lookup "resultType" raw with
  | none =>
    simp only [processBuilds, hrt] at h
    exact Or.inl (Option.some.inj h).symm
  | some rt =>
    cases htr : rt.truthy with
    | false =>
      simp only [processBuilds, hrt, htr, Bool.not_false, if_true] at h
      exact Or.inl (Option.some.inj h).symm
    | true =>
      cases hrk : strKeyIn st.recipes (List.lookup "uniqueName" raw) with
      | none =>
        simp only [processBuilds, hrt, htr, Bool.not_true, if_false, hrk] at h
        exact Or.inl (Option.some.inj h).symm
      | some r =>
        cases hwk : strKeyIn st.weapons (some rt) with
        | some w =>
          cases hleg : legalEdgeQuantity ((List.lookup "num" raw).getD (.int 1)) with
          | false =>
            simp only [processBuilds, hrt, htr, Bool.not_true, if_false, hrk, hwk,
              hleg] at h
            simp at h
          | true =>
            simp only [processBuilds, hrt, htr, Bool.not_true, if_false, hrk, hwk,
              hleg, if_true] at h
            exact Or.inr ⟨_, (Option.some.inj h).symm⟩
        | none =>
          cases hsk : strKeyIn st.resources (some rt) with
          | some s2 =>
            cases hleg : legalEdgeQuantity ((List.lookup "num" raw).getD (.int 1)) with
            | false =>
              simp only [processBuilds, hrt, htr, Bool.not_true, if_false, hrk, hwk,
                hsk, hleg] at h
              simp at h
            | true =>
              simp only [processBuilds, hrt, htr, Bool.not_true, if_false, hrk, hwk,
                hsk, hleg, if_true] at h
              exact Or.inr ⟨_, (Option.some.inj h).symm⟩
          | none =>
            simp only [processBuilds, hrt, htr, Bool.not_true, if_false, hrk, hwk,
              hsk] at h
            exact Or.inl (Option.some.inj h).symm

theorem processIngredient_shape (st : GraphState) (raw : RawRecord) (ing : Value)
    (t : GraphState) (h : processIngredient st raw ing = some t) :
    t = st ∨ ∃ e, t = { st with edges := insertEdge st.edges e } := by
  cases ing with
  | obj fields =>
    cases hit : List.lookup "ItemType" fields with
    | none =>
      simp only [processIngredient, hit] at h
      exact Or.inl (Option.some.inj h).symm
    | some it =>
      cases htr : it.truthy with
      | false =>
        simp only [processIngredient, hit, htr, Bool.not_false, if_true] at h
        exact Or.inl (Option.some.inj h).symm
      | true =>
        cases hrk : strKeyIn st.recipes (List.lookup "uniqueName" raw) with
        | none =>
          simp only [processIngredient, hit, htr, Bool.not_true, if_false, hrk] at h
          exact Or.inl (Option.some.inj h).symm
        | some r =>
          cases hsk : strKeyIn st.resources (some it) with
          | some s2 =>
            cases hleg : legalEdgeQuantity
                ((List.lookup "ItemCount" fields).getD (.int 1)) with
            | false =>
              simp only [processIngredient, hit, htr, Bool.not_true, if_false, hrk,
                hsk, hleg] at h
              simp at h
            | true =>
              simp only [processIngredient, hit, htr, Bool.not_true, if_false, hrk,
                hsk, hleg, if_true] at h
              exact Or.inr ⟨_, (Option.some.inj h).symm⟩
          | none =>
            simp only [processIngredient, hit, htr, Bool.not_true, if_false, hrk,
              hsk] at h
            exact Or.inl (Option.some.inj h).symm
  | null => simp [processIngredient] at h
  | bool b => simp [processIngredient] at h
  | int n => simp [processIngredient] at h
  | str s => simp [processIngredient] at h
  | list l => simp [processIngredient] at h

theorem shape_edges_mono {st t : GraphState}
    (h : t = st ∨ ∃ e, t = { st with edges := insertEdge st.edges e })
    (x : Edge) (hx : edgeMem x st.edges = true) : edgeMem x t.edges = true := by
  rcases h with rfl | ⟨e, rfl⟩
  · exact hx
  · exact edgeMem_insert_mono st.edges e x hx

theorem foldIngredients_edges_mono : ∀ (ings : List Value) (raw : RawRecord)
    (S T : GraphState),
    ings.foldlM (fun s ing => processIngredient s raw ing) S = some T →
    ∀ x, edgeMem x S.edges = true → edgeMem x T.edges = true := by
  intro ings
  induction ings with
  | nil =>
    intro raw S T h x hx
    obtain rfl := Option.some.inj h
    exact hx
  | cons ing ings ih =>
    intro raw S T h x hx
    rw [List.foldlM_cons] at h
    cases hstep : processIngredient S raw ing with
    | none => rw [hstep] at h; simp at h
    | some S1 =>
      rw [hstep] at h
      simp only [Option.bind_eq_bind, Option.some_bind] at h
      exact ih raw S1 T h x
        (shape_edges_mono (processIngredient_shape S raw ing S1 hstep) x hx)

theorem processRecipeRel_edges_mono (S T : GraphState) (raw : RawRecord)
    (h : processRecipeRel S raw = some T) :
    ∀ x, edgeMem x S.edges = true → edgeMem x T.edges = true := by
  unfold processRecipeRel at h
  cases hb : processBuilds S raw with
  | none => rw [hb] at h; simp at h
  | some Sb =>
    rw [hb] at h
    cases hi : rawIngredients raw with
    | none => rw [hi] at h; simp at h
    | some ings =>
      rw [hi] at h
      intro x hx
      exact foldIngredients_edges_mono ings raw Sb T h x
        (shape_edges_mono (processBuilds_shape S raw Sb hb) x hx)

theorem processRecipeRels_edges_mono : ∀ (batch : List RawRecord)
    (S T : GraphState), processRecipeRels S batch = some T →
    ∀ x, edgeMem x S.edges = true → edgeMem x T.edges = true := by
  intro batch
  induction batch with
  | nil =>
    intro S T h x hx
    obtain rfl := Option.some.inj h
    exact hx
  | cons raw batch ih =>
    intro S T h x hx
    unfold processRecipeRels at h
    rw [List.foldlM_cons] at h
    cases hstep : processRecipeRel S raw with
    | none => rw [hstep] at h; simp at h
    | some S1 =>
      rw [hstep] at h
      simp only [Option.bind_eq_bind, Option.some_bind] at h
      exact ih S1 T h x (processRecipeRel_edges_mono S S1 raw hstep x hx)

theorem processBuilds_rerun (S st2 T : GraphState) (raw : RawRecord)
    (h : processBuilds S raw = some T)
    (hres : S.resources = st2.resources) (hweap : S.weapons = st2.weapons)
    (hrec : S.recipes = st2.recipes)
    (hedges : ∀ x, edgeMem x T.edges = true → edgeMem x st2.edges = true) :
    processBuilds st2 raw = some st2 := by
  cases hrt : List.lookup "resultType" raw with
  | none => simp [processBuilds, hrt]
  | some rt =>
    cases htr : rt.truthy with
    | false => simp [processBuilds, hrt, htr]
    | true =>
      cases hrk : strKeyIn S.recipes (List.lookup "uniqueName" raw) with
      | none =>
        have hrk2 : strKeyIn st2.recipes (List.lookup "uniqueName" raw) = none := by
          rw [← hrec]; exact hrk
        simp [processBuilds, hrt, htr, hrk2]
      | some r =>
        have hrk2 : strKeyIn st2.recipes (List.lookup "uniqueName" raw) = some r := by
          rw [← hrec]; exact hrk
        cases hwk : strKeyIn S.weapons (some rt) with
        | some w =>
          have hwk2 : strKeyIn st2.weapons (some rt) = some w := by
            rw [← hweap]; exact hwk
          cases hleg : legalEdgeQuantity ((List.lookup "num" raw).getD (.int 1)) with
          | false =>
            exfalso
            simp only [processBuilds, hrt, htr, Bool.not_true, if_false, hrk, hwk,
              hleg] at h
            simp at h
          | true =>
            simp only [processBuilds, hrt, htr, Bool.not_true, if_false, hrk, hwk,
              hleg, if_true] at h
            obtain rfl := Option.some.inj h
            have hmem : edgeMem
                (⟨"Recipe", r, "BUILDS", "Weapon", w,
                  some ((List.lookup "num" raw).getD (.int 1))⟩ : Edge)
                st2.edges = true := by
              refine hedges _ ?_
              exact edgeMem_insertEdge_self S.edges _
            have hnoop := insertEdge_noop st2.edges _ hmem
            simp [processBuilds, hrt, htr, hrk2, hwk2, hleg, hnoop]
        | none =>
          have hwk2 : strKeyIn st2.weapons (some rt) = none := by
            rw [← hweap]; exact hwk
          cases hsk : strKeyIn S.resources (some rt) with
          | some s2 =>
            have hsk2 : strKeyIn st2.resources (some rt) = some s2 := by
              rw [← hres]; exact hsk
            cases hleg : legalEdgeQuantity ((List.lookup "num" raw).getD (.int 1)) with
            | false =>
              exfalso
              simp only [processBuilds, hrt, htr, Bool.not_true, if_false, hrk, hwk,
                hsk, hleg] at h
              simp at h
            | true =>
              simp only [processBuilds, hrt, htr, Bool.not_true, if_false, hrk, hwk,
                hsk, hleg, if_true] at h
              obtain rfl := Option.some.inj h
              have hmem : edgeMem
                  (⟨"Recipe", r, "BUILDS", "Resource", s2,
                    some ((List.lookup "num" raw).getD (.int 1))⟩ : Edge)
                  st2.edges = true := by
                refine hedges _ ?_
                exact edgeMem_insertEdge_self S.edges _
              have hnoop := insertEdge_noop st2.edges _ hmem
              simp [processBuilds, hrt, htr, hrk2, hwk2, hsk2, hleg, hnoop]
          | none =>
            have hsk2 : strKeyIn st2.resources (some rt) = none := by
              rw [← hres]; exact hsk
            simp [processBuilds, hrt, htr, hrk2, hwk2, hsk2]

theorem processIngredient_rerun (S st2 T : GraphState) (raw : RawRecord)
    (ing : Value) (h : processIngredient S raw ing = some T)
    (hres : S.resources = st2.resources) (hweap : S.weapons = st2.weapons)
    (hrec : S.recipes = st2.recipes)
    (hedges : ∀ x, edgeMem x T.edges = true → edgeMem x st2.edges = true) :
    processIngredient st2 raw ing = some st2 := by
  cases ing with
  | obj fields =>
    cases hit : List.lookup "ItemType" fields with
    | none => simp [processIngredient, hit]
    | some it =>
      cases htr : it.truthy with
      | false => simp [processIngredient, hit, htr]
      | true =>
        cases hrk : strKeyIn S.recipes (List.lookup "uniqueName" raw) with
        | none =>
          have hrk2 : strKeyIn st2.recipes (List.lookup "uniqueName" raw) = none := by
            rw [← hrec]; exact hrk
          simp [processIngredient, hit, htr, hrk2]
        | some r =>
          have hrk2 : strKeyIn st2.recipes (List.lookup "uniqueName" raw) = some r := by
            rw [← hrec]; exact hrk
          cases hsk : strKeyIn S.resources (some it) with
          | some s2 =>
            have hsk2 : strKeyIn st2.resources (some it) = some s2 := by
              rw [← hres]; exact hsk
            cases hleg : legalEdgeQuantity
                ((List.lookup "ItemCount" fields).getD (.int 1)) with
            | false =>
              exfalso
              simp only [processIngredient, hit, htr, Bool.not_true, if_false, hrk,
                hsk, hleg] at h
              simp at h
            | true =>
              simp only [processIngredient, hit, htr, Bool.not_true, if_false, hrk,
                hsk, hleg, if_true] at h
              obtain rfl := Option.some.inj h
              have hmem : edgeMem
                  (⟨"Recipe", r, "REQUIRES", "Resource", s2,
                    some ((List.lookup "ItemCount" fields).getD (.int 1))⟩ : Edge)
                  st2.edges = true := by
                refine hedges _ ?_
                exact edgeMem_insertEdge_self S.edges _
              have hnoop := insertEdge_noop st2.edges _ hmem
              simp [processIngredient, hit, htr, hrk2, hsk2, hleg, hnoop]
          | none =>
            have hsk2 : strKeyIn st2.resources (some it) = none := by
              rw [← hres]; exact hsk
            simp [processIngredient, hit, htr, hrk2, hsk2]
  | null => simp [processIngredient] at h
  | bool b => simp [processIngredient] at h
  | int n => simp [processIngredient] at h
  | str s => simp [processIngredient] at h
  | list l => simp [processIngredient] at h

theorem foldIngredients_rerun : ∀ (ings : List Value) (raw : RawRecord)
    (S T st2 : GraphState),
    ings.foldlM (fun s ing => processIngredient s raw ing) S = some T →
    S.resources = st2.resources → S.weapons = st2.weapons →
    S.recipes = st2.recipes →
    (∀ x, edgeMem x T.edges = true → edgeMem x st2.edges = true) →
    ings.foldlM (fun s ing => processIngredient s raw ing) st2 = some st2 := by
  intro ings
  induction ings with
  | nil => intro raw S T st2 _ _ _ _ _; rfl
  | cons ing ings ih =>
    intro raw S T st2 h hres hweap hrec hedges
    rw [List.foldlM_cons] at h ⊢
    cases hstep : processIngredient S raw ing with
    | none => rw [hstep] at h; simp at h
    | some S1 =>
      rw [hstep] at h
      simp only [Option.bind_eq_bind, Option.some_bind] at h
      have hmono1 : ∀ x, edgeMem x S1.edges = true → edgeMem x st2.edges = true :=
        fun x hx => hedges x (foldIngredients_edges_mono ings raw S1 T h x hx)
      rw [processIngredient_rerun S st2 S1 raw ing hstep hres hweap hrec hmono1]
      simp only [Option.bind_eq_bind, Option.some_bind]
      obtain ⟨e1, e2, e3, -, -⟩ := processIngredient_inv S raw ing S1 hstep
      exact ih raw S1 T st2 h (e1.trans hres) (e2.trans hweap) (e3.trans hrec) hedges

theorem processRecipeRel_rerun (S st2 S1 : GraphState) (raw : RawRecord)
    (h : processRecipeRel S raw = some S1)
    (hres : S.resources = st2.resources) (hweap : S.weapons = st2.weapons)
    (hrec : S.recipes = st2.recipes)
    (hedges : ∀ x, edgeMem x S1.edges = true → edgeMem x st2.edges = true) :
    processRecipeRel st2 raw = some st2 := by
  unfold processRecipeRel at h ⊢
  cases hb : processBuilds S raw with
  | none => rw [hb] at h; simp at h
  | some Sb =>
    rw [hb] at h
    cases hi : rawIngredients raw with
    | none => rw [hi] at h; simp at h
    | some ings =>
      rw [hi] at h
      have hbmono : ∀ x, edgeMem x Sb.edges = true → edgeMem x st2.edges = true :=
        fun x hx => hedges x (foldIngredients_edges_mono ings raw Sb S1 h x hx)
      rw [processBuilds_rerun S st2 Sb raw hb hres hweap hrec hbmono]
      obtain ⟨e1, e2, e3, -, -⟩ := processBuilds_inv S raw Sb hb
      exact foldIngredients_rerun ings raw Sb S1 st2 h (e1.trans hres)
        (e2.trans hweap) (e3.trans hrec) hedges

theorem processRecipeRels_rerun : ∀ (batch : List RawRecord) (S T st2 : GraphState),
    processRecipeRels S batch = some T →
    S.resources = st2.resources → S.weapons = st2.weapons →
    S.recipes = st2.recipes →
    (∀ x, edgeMem x T.edges = true → edgeMem x st2.edges = true) →
    processRecipeRels st2 batch = some st2 := by
  intro batch
  induction batch with
  | nil => intro S T st2 _ _ _ _ _; rfl
  | cons raw batch ih =>
    intro S T st2 h hres hweap hrec hedges
    unfold processRecipeRels at h ⊢
    rw [List.foldlM_cons] at h ⊢
    cases hstep : processRecipeRel S raw with
    | none => rw [hstep] at h; simp at h
    | some S1 =>
      rw [hstep] at h
      simp only [Option.bind_eq_bind, Option.some_bind] at h
      have hmono1 : ∀ x, edgeMem x S1.edges = true → edgeMem x st2.edges = true :=
        fun x hx => hedges x (processRecipeRels_edges_mono batch S1 T h x hx)
      rw [processRecipeRel_rerun S st2 S1 raw hstep hres hweap hrec hmono1]
      simp only [Option.bind_eq_bind, Option.some_bind]
      obtain ⟨e1, e2, e3, -, -⟩ := processRecipeRel_inv S raw S1 hstep
      exact ih S1 T st2 h (e1.trans hres) (e2.trans hweap) (e3.trans hrec) hedges

theorem ingestResources_proj (s : GraphState) (batch : List RawRecord) :
    (ingestResources s batch).1 =
      { s with resources := foldU s.resources (resourceKVs batch) } := by
  show (batch.foldl resourceStep (s, [])).1 = _
  rw [ingestResources_spec]
  exact resourcesFold_proj batch s

theorem ingestRecipeNodes_proj (s : GraphState) (batch : List RawRecord) :
    (ingestRecipeNodes s batch).1 =
      { s with recipes := foldU s.recipes (recipeKVs batch) } := by
  show (batch.foldl recipeStep (s, [])).1 = _
  rw [ingestRecipeNodes_spec]
  exact recipesFold_proj batch s

theorem ingestWeapons_proj (s : GraphState) (batch : List RawRecord) :
    (ingestWeapons s batch).1 =
      createWeaponCategories { s with weapons := foldU s.weapons (weaponKVs batch) }
        (catsFold batch []) := by
  show createWeaponCategories (batch.foldl weaponStep (s, [], [])).1
    (batch.foldl weaponStep (s, [], [])).2.1 = _
  rw [weaponsFold_proj]

/-- C8 counterexample: two raw recipe records with the same `uniqueName` and
`resultType` but different `num` (2 then 3): re-applying the BUILDS creation
with the same edge key and a different quantity does not overwrite — the
quantity sits in the `MERGE` pattern, so a SECOND parallel BUILDS edge
between the same Recipe and Weapon is created. -/
theorem c8_counterexample :
    ((processBuilds ⟨[], [("W1", [])], [("R1", [])], [], []⟩
        [("uniqueName", .str "R1"), ("resultType", .str "W1"), ("num", .int 2)]).bind
      (fun s => processBuilds s
        [("uniqueName", .str "R1"), ("resultType", .str "W1"), ("num", .int 3)])).map
      (fun s => (s.edges.filter (fun e =>
        e.srcKey == "R1" && e.relType == "BUILDS" && e.tgtKey == "W1")).length) =
    some 2 := rfl

/-- C8 amended: edge creation is idempotent only at identical attribute
values — re-merging an edge with the same key AND the same quantity is a
no-op (first conjunct) — and re-running the whole three-pass ingestion
against unchanged input from any starting state returns the state unchanged:
identical node properties, identical edge existence, identical edge
attributes, no duplication (second conjunct).  Re-applying the same endpoints
with a different quantity instead adds a parallel edge (see the
counterexample). -/
theorem c8_idempotent (st : GraphState) (res weap rec : List RawRecord) :
    (∀ (s : GraphState) (e : Edge),
      insertEdge (insertEdge s.edges e) e = insertEdge s.edges e) ∧
    (pipeline st res weap rec).bind (fun s => pipeline s res weap rec) =
      pipeline st res weap rec := by
  constructor
  · intro s e
    exact insertEdge_noop _ e (edgeMem_insertEdge_self s.edges e)
  cases hpipe : pipeline st res weap rec with
  | none => rfl
  | some stf =>
    show (pipeline stf res weap rec) = some stf
    have hpipe2 := hpipe
    simp only [pipeline, ingestRecipes] at hpipe2
    cases hpr : processRecipeRels
        (ingestRecipeNodes (ingestWeapons (ingestResources st res).1 weap).1 rec).1
        rec with
    | none => rw [hpr] at hpipe2; simp at hpipe2
    | some s4 =>
      rw [hpr] at hpipe2
      simp at hpipe2
      subst hpipe2
      -- run-1 state decomposition
      have e1 : (ingestResources st res).1 =
          { st with resources := foldU st.resources (resourceKVs res) } :=
        ingestResources_proj st res
      have e2 : (ingestWeapons (ingestResources st res).1 weap).1 =
          createWeaponCategories
            { (ingestResources st res).1 with
              weapons := foldU ((ingestResources st res).1).weapons (weaponKVs weap) }
            (catsFold weap []) :=
        ingestWeapons_proj (ingestResources st res).1 weap
      have e3 : (ingestRecipeNodes (ingestWeapons (ingestResources st res).1 weap).1 rec).1 =
          { (ingestWeapons (ingestResources st res).1 weap).1 with
            recipes := foldU ((ingestWeapons (ingestResources st res).1 weap).1).recipes
              (recipeKVs rec) } :=
        ingestRecipeNodes_proj _ rec
      obtain ⟨f1, f2, f3, f4, -⟩ := processRecipeRels_inv rec _ s4 hpr
      obtain ⟨c1, c2, c3⟩ := createWeaponCategories_fields (catsFold weap [])
        { (ingestResources st res).1 with
          weapons := foldU ((ingestResources st res).1).weapons (weaponKVs weap) }
      -- component equations for the final state
      have hres1 : s4.resources = foldU st.resources (resourceKVs res) := by
        rw [f1, e3]
        show ((ingestWeapons (ingestResources st res).1 weap).1).resources = _
        rw [e2, c1]
        show ((ingestResources st res).1).resources = _
        rw [e1]
      have hweap1 : s4.weapons = foldU st.weapons (weaponKVs weap) := by
        rw [f2, e3]
        show ((ingestWeapons (ingestResources st res).1 weap).1).weapons = _
        rw [e2, c2]
        show foldU ((ingestResources st res).1).weapons (weaponKVs weap) = _
        rw [e1]
      have hrec1 : s4.recipes = foldU st.recipes (recipeKVs rec) := by
        rw [f3, e3]
        show foldU ((ingestWeapons (ingestResources st res).1 weap).1).recipes
          (recipeKVs rec) = _
        rw [e2, c3]
        show foldU ((ingestResources st res).1).recipes (recipeKVs rec) = _
        rw [e1]
      -- run-2: resource pass is a no-op on the final state
      have hA : (ingestResources s4 res).1 = s4 := by
        rw [ingestResources_proj, hres1, foldU_idem, ← hres1, setResources_self]
      -- run-2: weapon node pass is a no-op
      have hW2 : { s4 with weapons := foldU s4.weapons (weaponKVs weap) } = s4 := by
        rw [hweap1, foldU_idem, ← hweap1, setWeapons_self]
      -- run-2: category pass is a no-op
      have hB : (ingestWeapons s4 weap).1 = s4 := by
        rw [ingestWeapons_proj, hW2]
        refine createWeaponCategories_noop (catsFold weap []) s4 ?_
        intro c hc
        constructor
        · have hcats : c ∈ ((ingestWeapons (ingestResources st res).1 weap).1).categories := by
            rw [e2]
            exact createWeaponCategories_cats_mem (catsFold weap []) _ c hc
          have hcats3 : c ∈ ((ingestRecipeNodes (ingestWeapons (ingestResources st res).1 weap).1 rec).1).categories := by
            rw [e3]
            exact hcats
          rw [f4]
          exact hcats3
        · intro wnode hw
          have hwweap : s4.weapons =
              ((ingestWeapons (ingestResources st res).1 weap).1).weapons := by
            rw [f2, e3]
          have hw2 : wnode ∈ linkedWeapons
              ({ (ingestResources st res).1 with
                weapons := foldU ((ingestResources st res).1).weapons
                  (weaponKVs weap) } : GraphState).weapons c := by
            rw [hwweap, e2, c2] at hw
            exact hw
          have hmem2 : edgeMem
              ⟨"Weapon", wnode.1, "BELONGS_TO", "Category", c, none⟩
              ((ingestWeapons (ingestResources st res).1 weap).1).edges = true := by
            rw [e2]
            exact createWeaponCategories_edge_mem (catsFold weap []) _ c hc wnode hw2
          have hmem3 : edgeMem
              ⟨"Weapon", wnode.1, "BELONGS_TO", "Category", c, none⟩
              ((ingestRecipeNodes (ingestWeapons (ingestResources st res).1 weap).1 rec).1).edges = true := by
            rw [e3]
            exact hmem2
          exact processRecipeRels_edges_mono rec _ s4 hpr _ hmem3
      -- run-2: recipe node pass is a no-op
      have hC : (ingestRecipeNodes s4 rec).1 = s4 := by
        rw [ingestRecipeNodes_proj, hrec1, foldU_idem, ← hrec1, setRecipes_self]
      -- run-2: relationship pass is a no-op
      have hD : processRecipeRels s4 rec = some s4 :=
        processRecipeRels_rerun rec _ s4 s4 hpr f1.symm f2.symm f3.symm
          (fun x hx => hx)
      simp only [pipeline, ingestRecipes]
      rw [hA, hB, hC, hD]
      rfl
